import Mathlib

/-!
Verification development for the `bit` snapshot/version store.

The Go sources are embedded shallowly:

* `internal/util` delta engine and object store (the framed/compressed
  variant, with the `Compressed` field): `CalculateDelta`, `ApplyDelta`,
  `SaveDeltaSet`/`LoadDeltaSet`, `SaveFullFile`, `GetFileContent`.
* `internal/core/repository.go`: `SaveState`, `saveFilesAsDelta`,
  `getFileContentFromSave`, `getFilesToSave`, `Checkout` and helpers.

Modelling conventions, stated once here:

* File contents are `Bytes := List Nat` (byte values).
* External libraries are replaced by executable stand-ins that keep exactly
  the interface properties the embedded code relies on:
  - `calculateFileHash` stands in for the SHA-256 hex digest: fixed width 64,
    collision-free (the spec declares hash collisions out of scope).
  - `gzipCompress`/`gzipDecompress` stand in for `compress/gzip`: a two-byte
    magic header that decompression validates; corrupting the payload past
    the header can still "decompress", so the hash check stays load-bearing.
  - `hexEncode`/`hexDecode` stand in for `encoding/hex`: a tag byte (104)
    before every data byte; decoding fails on input that is not of this
    shape — in particular on raw diff-match-patch edit-script text, which
    always starts with byte 64 ('@'), exactly as real hex decoding fails
    on `"@@ -..."` text.
  - `patchMakeText`/`patchFromText`/`patchApply` stand in for
    go-diff/diffmatchpatch: the serialized script is empty iff the two
    contents are equal, otherwise it starts with byte 64 and records the
    (old, new) pair; `patchApply` is fuzzy like `dmp.PatchApply` — on a base
    mismatch it returns the base unchanged together with a `false` success
    flag, and the caller in the Go code ignores that flag.
  - JSON (de)serialization of the blob metadata header is
    `encodeMetadata`/`decodeMetadata` (decoding fails on garbage); the JSON
    round trips of the metadata document and of delta-set files are
    modelled structurally (the catalog and delta sets are held as values).
* The object store key `objectsDir/<saveHash>_<path>` is modelled as the
  pair `(saveHash, path)`; this is injective for the fixed-width hashes
  `createSaveHash` produces.
* The filesystem is a key/value store of files; directories, permission
  bits and `MkdirAll` (which cannot fail in the mock filesystem and does
  not affect file contents) are not represented.  `Walk` with the `.bit`
  subtree skipped enumerates the non-`.bit` keys.
* The ignore matcher is an external collaborator: it is a parameter
  `compile : Bytes → String → Bool` turning the ignore-spec file content
  into a match predicate (`IsIgnored` applies it).
* Unbounded recursion/loops (`getFileContentFromSave`, the delta-chain
  walk) take explicit fuel; fuel `saves.length + 1` is sufficient for every
  linear catalog, and exhaustion is an explicit error / loop cut-off that
  models the divergence the Go code would exhibit on cyclic metadata.
-/

/-- Byte strings: file contents, patch texts and framed records. -/
abbrev Bytes := List Nat

deriving instance DecidableEq for Except

section StoreOps

variable {κ : Type} {α : Type} [DecidableEq κ]

/-- First-match lookup in an association-list store (the filesystem map). -/
def findKey : List (κ × α) → κ → Option α
  | [], _ => none
  | (k, v) :: rest, q => if q = k then some v else findKey rest q

/-- Remove every entry of a key (models `Remove`). -/
def eraseKey : List (κ × α) → κ → List (κ × α)
  | [], _ => []
  | (k, v) :: rest, q => if k = q then eraseKey rest q else (k, v) :: eraseKey rest q

/-- Overwrite-or-insert (models `WriteFile`). -/
def setKey (s : List (κ × α)) (k : κ) (v : α) : List (κ × α) :=
  (k, v) :: eraseKey s k

@[simp] theorem findKey_nil (q : κ) : findKey ([] : List (κ × α)) q = none := rfl

theorem findKey_eraseKey (s : List (κ × α)) (k q : κ) :
    findKey (eraseKey s k) q = if q = k then none else findKey s q := by
  induction s with
  | nil => simp [eraseKey]
  | cons e rest ih =>
    obtain ⟨k', v⟩ := e
    simp only [eraseKey, findKey]
    by_cases hk : k' = k <;> by_cases hq : q = k' <;>
      simp_all [findKey, ih]

theorem findKey_setKey (s : List (κ × α)) (k q : κ) (v : α) :
    findKey (setKey s k v) q = if q = k then some v else findKey s q := by
  by_cases hq : q = k <;> simp [setKey, findKey, hq, findKey_eraseKey]

theorem findKey_setKey_self (s : List (κ × α)) (k : κ) (v : α) :
    findKey (setKey s k v) k = some v := by simp [findKey_setKey]

theorem findKey_setKey_ne (s : List (κ × α)) (k q : κ) (v : α) (h : q ≠ k) :
    findKey (setKey s k v) q = findKey s q := by simp [findKey_setKey, h]

theorem findKey_eraseKey_self (s : List (κ × α)) (k : κ) :
    findKey (eraseKey s k) k = none := by simp [findKey_eraseKey]

theorem findKey_eraseKey_ne (s : List (κ × α)) (k q : κ) (h : q ≠ k) :
    findKey (eraseKey s k) q = findKey s q := by simp [findKey_eraseKey, h]

theorem findKey_isSome_of_mem_keys (s : List (κ × α)) (q : κ)
    (h : q ∈ s.map Prod.fst) : (findKey s q).isSome := by
  induction s with
  | nil => simp at h
  | cons e rest ih =>
    obtain ⟨k, v⟩ := e
    by_cases hq : q = k
    · simp [findKey, hq]
    · simp only [List.map_cons, List.mem_cons] at h
      rcases h with h | h
      · exact absurd h hq
      · simp [findKey, hq, ih h]

theorem mem_keys_of_findKey_eq_some (s : List (κ × α)) (q : κ) (v : α)
    (h : findKey s q = some v) : q ∈ s.map Prod.fst := by
  induction s with
  | nil => simp [findKey] at h
  | cons e rest ih =>
    obtain ⟨k, w⟩ := e
    by_cases hq : q = k
    · simp [hq]
    · simp only [findKey, hq, if_false] at h
      simp [ih h]

end StoreOps

/-! ### Executable stand-ins for external libraries -/

/-- Injective encoding of a byte list into one natural number
(used to build collision-free digest stand-ins). -/
def encNat : List Nat → Nat
  | [] => 0
  | b :: t => Nat.pair b (encNat t) + 1

theorem encNat_inj : ∀ {a b : List Nat}, encNat a = encNat b → a = b
  | [], [], _ => rfl
  | [], _ :: _, h => by simp [encNat] at h
  | _ :: _, [], h => by simp [encNat] at h
  | x :: t, y :: s, h => by
    simp only [encNat, Nat.succ.injEq] at h
    obtain ⟨h1, h2⟩ := Nat.pair_eq_pair.mp h
    rw [h1, encNat_inj h2]

/-- Stand-in for `calculateFileHash` (SHA-256 hex digest of file content):
fixed width 64 like the hex digest, collision-free (the spec treats hash
collisions as out of scope, so the stand-in realizes collision freedom). -/
def calculateFileHash (content : Bytes) : Bytes :=
  encNat content :: List.replicate 63 0

theorem calculateFileHash_inj {a b : Bytes}
    (h : calculateFileHash a = calculateFileHash b) : a = b := by
  simp only [calculateFileHash, List.cons.injEq] at h
  exact encNat_inj h.1

@[simp] theorem calculateFileHash_length (c : Bytes) :
    (calculateFileHash c).length = 64 := by simp [calculateFileHash]

/-- Stand-in for gzip compression (`gzip.NewWriter`): magic header then data. -/
def gzipCompress (b : Bytes) : Bytes := 31 :: 139 :: b

/-- Stand-in for gzip decompression: validates the magic header (as
`gzip.NewReader` does) and fails otherwise; payload bytes after the header
are accepted, so corrupted payloads can decompress to wrong bytes and the
caller's hash check stays load-bearing. -/
def gzipDecompress : Bytes → Option Bytes
  | 31 :: 139 :: rest => some rest
  | _ => none

@[simp] theorem gzipDecompress_gzipCompress (b : Bytes) :
    gzipDecompress (gzipCompress b) = some b := rfl

/-- Stand-in for hex encoding (`hex.EncodeToString`): tag byte 104 before
every data byte. -/
def hexEncode : Bytes → Bytes
  | [] => []
  | x :: t => 104 :: x :: hexEncode t

/-- Stand-in for hex decoding (`hex.DecodeString`): fails unless the input
has the `hexEncode` shape — in particular on raw edit-script text, which
starts with byte 64 ('@'), just as real hex decoding rejects `"@@ -..."`. -/
def hexDecode : Bytes → Option Bytes
  | [] => some []
  | 104 :: x :: t => (hexDecode t).map (x :: ·)
  | _ => none

theorem hexDecode_hexEncode (b : Bytes) : hexDecode (hexEncode b) = some b := by
  induction b with
  | nil => rfl
  | cons x t ih => simp [hexEncode, hexDecode, ih]

/-- `compressString` from util: gzip then hex-encode. -/
def compressString (s : Bytes) : Bytes := hexEncode (gzipCompress s)

/-- `decompressString` from util: hex-decode then gunzip; `none` models the
returned error. -/
def decompressString (s : Bytes) : Option Bytes := (hexDecode s).bind gzipDecompress

theorem decompressString_compressString (s : Bytes) :
    decompressString (compressString s) = some s := by
  simp [decompressString, compressString, hexDecode_hexEncode]

/-- Stand-in for `dmp.PatchMake` + `dmp.PatchToText`: empty iff the contents
are equal (diff-match-patch emits no patch for identical texts); otherwise a
script starting with byte 64 ('@') recording the old/new pair,
length-prefixed. -/
def patchMakeText (oldC newC : Bytes) : Bytes :=
  if oldC = newC then [] else 64 :: oldC.length :: (oldC ++ newC.length :: newC)

/-- Stand-in for `dmp.PatchFromText`: parses scripts of the `patchMakeText`
shape and fails (the Go error) on anything else. -/
def patchFromText : Bytes → Option (Bytes × Bytes)
  | 64 :: n :: rest =>
    let oldC := rest.take n
    match rest.drop n with
    | m :: rest2 => if oldC.length = n ∧ rest2.length = m then some (oldC, rest2) else none
    | [] => none
  | _ => none

/-- Stand-in for `dmp.PatchApply`: fuzzy application. Applying to the
script's own base succeeds; on any other base every hunk fails and the text
comes back unchanged, with the success flag `false` (the Go caller discards
this flag). -/
def patchApply (p : Bytes × Bytes) (base : Bytes) : Bytes × Bool :=
  if base = p.1 then (p.2, true) else (base, false)

theorem patchFromText_patchMakeText {oldC newC : Bytes} (h : oldC ≠ newC) :
    patchFromText (patchMakeText oldC newC) = some (oldC, newC) := by
  simp [patchMakeText, h, patchFromText, List.take_append, List.drop_append]

/-- Stand-in for `json.Marshal` of the blob metadata header
`{compressed, contentHash}`: a flag byte then the digest. -/
def encodeMetadata (compressed : Bool) (hash : Bytes) : Bytes :=
  (if compressed then 1 else 0) :: hash

/-- Stand-in for `json.Unmarshal` of the metadata header: fails (the Go
error) unless the bytes have the `encodeMetadata` shape. -/
def decodeMetadata : Bytes → Option (Bool × Bytes)
  | 0 :: rest => some (false, rest)
  | 1 :: rest => some (true, rest)
  | _ => none

@[simp] theorem decodeMetadata_encodeMetadata (c : Bool) (h : Bytes) :
    decodeMetadata (encodeMetadata c h) = some (c, h) := by
  cases c <;> rfl

/-! ### Delta engine (`internal/util`, framed/compressed variant) -/

/-- Error taxonomy of the embedded operations (the Go code returns wrapped
`error` strings; the kinds are what the spec's taxonomy distinguishes). -/
inductive Err where
  | notInitialized
  | notFound
  | noFiles
  | readFail
  | invalidHash
  | decompressFail
  | parseFail
  | integrity
  | fuelOut
deriving DecidableEq

/-- `DeltaInfo`. Go's `Patches []string` is either `nil` or a one-element
array holding the serialized script, hence `Option Bytes`. -/
structure DeltaInfo where
  path : String
  isNew : Bool
  isDeleted : Bool
  baseSaveHash : String
  patches : Option Bytes
  contentHash : Bytes
  compressed : Bool
deriving DecidableEq

/-- `DeltaSet`. -/
structure DeltaSet where
  saveHash : String
  deltas : List DeltaInfo
deriving DecidableEq

/-- `CalculateDelta`: `none` is Go's `nil` slice (absent content); a present
empty buffer is `some []`. -/
def CalculateDelta (oldContent newContent : Option Bytes) (path : String)
    (baseSaveHash : String) : DeltaInfo :=
  match oldContent with
  | none =>
    { path := path, isNew := true, isDeleted := false, baseSaveHash := ""
      patches := none, contentHash := calculateFileHash (newContent.getD [])
      compressed := true }
  | some oldC =>
    match newContent with
    | none =>
      { path := path, isNew := false, isDeleted := true, baseSaveHash := baseSaveHash
        patches := none, contentHash := calculateFileHash oldC, compressed := true }
    | some newC =>
      let patchesText := patchMakeText oldC newC
      { path := path, isNew := false, isDeleted := false, baseSaveHash := baseSaveHash
        patches := if patchesText = [] then none else some patchesText
        contentHash := calculateFileHash newC, compressed := true }

/-- `ApplyDelta`. The provider result `Option Bytes` carries Go's possibly
`nil` content; note that the fuzzy-apply success flags are discarded
(`newContent, _ := dmp.PatchApply(...)`), exactly as in the source. -/
def ApplyDelta (delta : DeltaInfo)
    (baseContentProvider : String → String → Except Err (Option Bytes)) :
    Except Err (Option Bytes) :=
  if delta.isNew then baseContentProvider delta.path delta.baseSaveHash
  else if delta.isDeleted then .ok none
  else
    match delta.patches with
    | none => baseContentProvider delta.path delta.baseSaveHash
    | some patchText0 =>
      match baseContentProvider delta.path delta.baseSaveHash with
      | .error e => .error e
      | .ok baseContent =>
        let decoded : Except Err Bytes :=
          if delta.compressed then
            match decompressString patchText0 with
            | none => .error .decompressFail
            | some t => .ok t
          else .ok patchText0
        match decoded with
        | .error e => .error e
        | .ok patchText =>
          match patchFromText patchText with
          | none => .error .parseFail
          | some patches =>
            let newContent := (patchApply patches (baseContent.getD [])).1
            if calculateFileHash newContent = delta.contentHash then .ok (some newContent)
            else .error .integrity

/-- The per-delta compression `SaveDeltaSet` performs before persisting. -/
def compressDelta (delta : DeltaInfo) : DeltaInfo :=
  match delta.patches with
  | some t => if delta.compressed then { delta with patches := some (compressString t) } else delta
  | none => delta

/-- `SaveDeltaSet`: compress every patch, then write `delta_<hash>.json`
(the delta-set store is keyed by save hash; the JSON round trip is
structural). -/
def SaveDeltaSet (deltaSet : DeltaSet) (store : List (String × DeltaSet)) :
    List (String × DeltaSet) :=
  setKey store deltaSet.saveHash
    { deltaSet with deltas := deltaSet.deltas.map compressDelta }

/-- `LoadDeltaSet`: read `delta_<hash>.json`; `none` models the read error. -/
def LoadDeltaSet (saveHash : String) (store : List (String × DeltaSet)) : Option DeltaSet :=
  findKey store saveHash

/-! ### Object store (`SaveFullFile` / `GetFileContent`) -/

/-- The 4-byte big-endian length prefix (`byte(metadataLen >> 24)` etc.). -/
def lenHeader (n : Nat) : Bytes :=
  [n / 2 ^ 24 % 256, n / 2 ^ 16 % 256, n / 2 ^ 8 % 256, n % 256]

/-- The combined record `SaveFullFile` writes:
`[metadata length (4 bytes)][metadata json][compressed content]`. -/
def frameBlob (content : Bytes) : Bytes :=
  let metadataBytes := encodeMetadata true (calculateFileHash content)
  lenHeader metadataBytes.length ++ metadataBytes ++ gzipCompress content

/-- `SaveFullFile`: always compresses and frames, then overwrites the blob
at key `(saveHash, path)` (the file `objectsDir/<saveHash>_<path>`). -/
def SaveFullFile (content : Bytes) (path saveHash : String)
    (objects : List ((String × String) × Bytes)) : List ((String × String) × Bytes) :=
  setKey objects (saveHash, path) (frameBlob content)

/-- Big-endian metadata length parse of `GetFileContent`. -/
def parseLen (content : Bytes) : Nat :=
  content.getD 0 0 * 2 ^ 24 + content.getD 1 0 * 2 ^ 16 +
    content.getD 2 0 * 2 ^ 8 + content.getD 3 0

/-- The body of `GetFileContent` once the raw stored bytes are read: frame
detection, decompression, hash verification, raw fallback. -/
def readBlob (content : Bytes) : Except Err Bytes :=
  if 8 < content.length then
    let metadataLen := parseLen content
    if 0 < metadataLen ∧ metadataLen < 1000 ∧ 4 + metadataLen < content.length then
      match decodeMetadata ((content.drop 4).take metadataLen) with
      | some (mCompressed, mHash) =>
        if mCompressed then
          match gzipDecompress (content.drop (4 + metadataLen)) with
          | none => .error .decompressFail
          | some decompressedContent =>
            if calculateFileHash decompressedContent = mHash then .ok decompressedContent
            else .error .integrity
        else .ok content
      | none => .ok content
    else .ok content
  else .ok content

/-- `GetFileContent`: empty save hash reads the working directory, otherwise
reads the framed blob from the objects area. -/
def GetFileContent (path saveHash : String)
    (objects : List ((String × String) × Bytes)) (work : List (String × Bytes)) :
    Except Err Bytes :=
  if saveHash = "" then
    match findKey work path with
    | some c => .ok c
    | none => .error .notFound
  else
    match findKey objects (saveHash, path) with
    | none => .error .notFound
    | some content => readBlob content

/-! ### Repository (`internal/core/repository.go`) -/

/-- `Save` (catalog record); `BaseSaveHash` is `""` when absent (Go zero
value, `omitempty`). -/
structure Save where
  hash : String
  name : String
  timestamp : Nat
  files : List String
  baseSaveHash : String
deriving DecidableEq

/-- The repository's persistent state: working tree files, object blobs,
delta-set files and the catalog (`metadata.json`, held structurally). -/
structure RepoState where
  initialized : Bool
  work : List (String × Bytes)
  objects : List ((String × String) × Bytes)
  deltaSets : List (String × DeltaSet)
  saves : List Save
deriving DecidableEq

/-- `IsBitDirectory` from `internal/util/ignore.go` (`path == ".bit" ||
strings.HasPrefix(path, ".bit/")`; the prefix test is on the character
list so that it evaluates by iota rules). -/
def IsBitDirectory (path : String) : Bool :=
  path == ".bit" || List.isPrefixOf ".bit/".toList path.toList

/-- The ignore-spec file name. -/
def ignoreFile : String := ".bitignore"

/-- `maxDeltaChainLength` constant. -/
def maxDeltaChainLength : Nat := 10

/-- `IsIgnored`: the glob matcher is an external collaborator, abstracted to
the predicate the compiled pattern set denotes. -/
def IsIgnored (path : String) (patterns : String → Bool) : Bool := patterns path

/-- `GetIgnorePatterns` composed with the pattern compiler: read the
ignore-spec file and compile it; a missing file yields no patterns (the
`os.IsNotExist` branch of every caller). -/
def GetIgnorePatterns (work : List (String × Bytes)) (compile : Bytes → String → Bool) :
    String → Bool :=
  match findKey work ignoreFile with
  | some content => compile content
  | none => fun _ => false

/-- Stand-in for `createSaveHash` (sha256 of name+timestamp+files truncated
to 12 hex chars): an executable content-derived identifier; no theorem
assumes anything about it beyond explicit hypotheses. -/
def createSaveHash (name : String) (timestamp : Nat) (files : List String) : String :=
  name ++ "-" ++ toString timestamp ++ "-" ++ String.intercalate "," files ++ "#"

/-- Resolution fuel: `saves.length + 1` bounds the recursion depth of
`getFileContentFromSave` on every linear catalog; running out models the
unbounded recursion cyclic metadata would cause in the Go code. -/
def resolveFuel (st : RepoState) : Nat := st.saves.length + 1

/-- `getFileContentFromSave`: full blob short-circuit, then the save's
delta record replayed recursively through `ApplyDelta`. -/
def getFileContentFromSave (st : RepoState) : Nat → String → String → Except Err (Option Bytes)
  | 0, _, _ => .error .fuelOut
  | fuel + 1, file, saveHash =>
    if saveHash = "" then .error .invalidHash
    else
      match GetFileContent file saveHash st.objects st.work with
      | .ok content => .ok (some content)
      | .error _ =>
        match st.saves.find? (fun s => s.hash == saveHash) with
        | none => .error .notFound
        | some _ =>
          match LoadDeltaSet saveHash st.deltaSets with
          | none => .error .notFound
          | some deltaSet =>
            match deltaSet.deltas.find? (fun d => d.path == file) with
            | none => .error .notFound
            | some fileDelta =>
              ApplyDelta fileDelta (fun p h => getFileContentFromSave st fuel p h)

/-- The delta-chain walk of `saveFilesAsDelta`: follow `baseSaveHash` links
until a save with a stored full blob for `file` (or an unknown/empty hash)
is reached, counting the hops. -/
def chainCount (st : RepoState) (file : String) : Nat → String → Nat → Nat
  | 0, _, count => count
  | fuel + 1, currentHash, count =>
    if currentHash = "" then count
    else
      match st.saves.find? (fun s => s.hash == currentHash) with
      | none => count
      | some save =>
        if (findKey st.objects (currentHash, file)).isSome then count
        else chainCount st file fuel save.baseSaveHash (count + 1)

/-- The delta-chain length from `startHash` for `file`. -/
def deltaChainCount (st : RepoState) (file : String) (startHash : String) : Nat :=
  chainCount st file (st.saves.length + 1) startHash 0

/-- The `deltaCounts` map of `saveFilesAsDelta` (empty when there is no
base save; `deltaCounts[file]` then defaults to 0). -/
def deltaCountsFn (st : RepoState) (baseSave : Option Save) (file : String) : Nat :=
  match baseSave with
  | some b => deltaChainCount st file b.hash
  | none => 0

/-- One iteration of the per-file loop of `saveFilesAsDelta`, threading the
accumulated `(objects, deltas)`.  Base-content resolution sees the blobs
written by earlier iterations, as it does through `r.fs` in Go. -/
def processOne (st : RepoState) (saveHash : String) (baseSave : Option Save)
    (acc : List ((String × String) × Bytes) × List DeltaInfo) (file : String) :
    Except Err (List ((String × String) × Bytes) × List DeltaInfo) :=
  match findKey st.work file with
  | none => .error .readFail
  | some currentContent =>
    match baseSave with
    | some b =>
      if file ∈ b.files then
        match getFileContentFromSave { st with objects := acc.1 } (resolveFuel st) file b.hash with
        | .error e => .error e
        | .ok baseContent =>
          let delta := CalculateDelta baseContent (some currentContent) file b.hash
          let objects' :=
            if 0 < maxDeltaChainLength ∧ delta.patches.isSome ∧
                maxDeltaChainLength ≤ deltaCountsFn st baseSave file then
              SaveFullFile currentContent file saveHash acc.1
            else acc.1
          .ok (objects', acc.2 ++ [delta])
      else
        .ok (SaveFullFile currentContent file saveHash acc.1,
          acc.2 ++ [CalculateDelta none (some currentContent) file ""])
    | none =>
      .ok (SaveFullFile currentContent file saveHash acc.1,
        acc.2 ++ [CalculateDelta none (some currentContent) file ""])

/-- The per-file loop of `saveFilesAsDelta` over the current file list. -/
def processAll (st : RepoState) (saveHash : String) (baseSave : Option Save) :
    List String → List ((String × String) × Bytes) × List DeltaInfo →
    Except Err (List ((String × String) × Bytes) × List DeltaInfo)
  | [], acc => .ok acc
  | f :: rest, acc =>
    match processOne st saveHash baseSave acc f with
    | .error e => .error e
    | .ok acc' => processAll st saveHash baseSave rest acc'

/-- The deleted-files loop of `saveFilesAsDelta`: a deletion record for
every base-manifest file missing from the new file list. -/
def processDeleted (st : RepoState) (objectsNow : List ((String × String) × Bytes))
    (baseHash : String) : List String → List DeltaInfo → Except Err (List DeltaInfo)
  | [], acc => .ok acc
  | f :: rest, acc =>
    match getFileContentFromSave { st with objects := objectsNow } (resolveFuel st) f baseHash with
    | .error e => .error e
    | .ok baseContent =>
      processDeleted st objectsNow baseHash rest (acc ++ [CalculateDelta baseContent none f baseHash])

/-- `saveFilesAsDelta`. -/
def saveFilesAsDelta (st : RepoState) (files : List String) (saveHash : String)
    (baseSave : Option Save) : Except Err RepoState :=
  match processAll st saveHash baseSave files (st.objects, []) with
  | .error e => .error e
  | .ok (objects', deltas) =>
    let afterDeleted :=
      match baseSave with
      | some b =>
        processDeleted st objects' b.hash (b.files.filter (fun f => !files.contains f)) deltas
      | none => .ok deltas
    match afterDeleted with
    | .error e => .error e
    | .ok allDeltas =>
      let newSets := SaveDeltaSet (DeltaSet.mk saveHash allDeltas) st.deltaSets
      .ok { st with objects := objects', deltaSets := newSets }

/-- `getFilesToSave`: walk the tree skipping the `.bit` subtree, always
include the ignore-spec file, and drop every other ignored path. -/
def getFilesToSave (st : RepoState) (compile : Bytes → String → Bool) : List String :=
  let patterns := GetIgnorePatterns st.work compile
  (st.work.map Prod.fst).filter (fun path =>
    if IsBitDirectory path then false
    else if path == ignoreFile then true
    else !(IsIgnored path patterns))

/-- `SaveState` (delta mode, the compiled configuration). -/
def SaveState (st : RepoState) (name : String) (timestamp : Nat)
    (compile : Bytes → String → Bool) : Except Err (String × RepoState) :=
  if !st.initialized then .error .notInitialized
  else
    let files := getFilesToSave st compile
    if files.isEmpty then .error .noFiles
    else
      let hash := createSaveHash name timestamp files
      let baseSave := st.saves.getLast?
      match saveFilesAsDelta st files hash baseSave with
      | .error e => .error e
      | .ok st1 =>
        let save : Save :=
          { hash := hash, name := name, timestamp := timestamp, files := files
            baseSaveHash := match baseSave with | some b => b.hash | none => "" }
        .ok (hash, { st1 with saves := st1.saves ++ [save] })

/-! ### Checkout (`repository.go`) -/

/-- `listAllFiles`: every working-tree file outside the `.bit` subtree. -/
def listAllFiles (st : RepoState) : List String :=
  (st.work.map Prod.fst).filter (fun p => !IsBitDirectory p)

/-- Step 3 of checkout: restore the ignore-spec file from the target save
when its manifest contains it. -/
def restoreIgnore (st : RepoState) (save : Save) (hash : String) :
    Except Err (List (String × Bytes)) :=
  if save.files.contains ignoreFile then
    match getFileContentFromSave st (resolveFuel st) ignoreFile hash with
    | .error e => .error e
    | .ok c => .ok (setKey st.work ignoreFile (c.getD []))
  else .ok st.work

/-- Step 5: snapshot the content of every currently-existing ignored file
(read failures are skipped, as in the source). -/
def snapshotIgnored (work1 : List (String × Bytes)) (currentFiles : List String)
    (patterns : String → Bool) : List (String × Bytes) :=
  currentFiles.filterMap (fun f =>
    if IsBitDirectory f || f == ignoreFile then none
    else if IsIgnored f patterns then (findKey work1 f).map (fun c => (f, c))
    else none)

/-- Step 6: remove every current non-ignored file absent from the target
manifest. -/
def deleteLoop (save : Save) (patterns : String → Bool) :
    List (String × Bytes) → List String → List (String × Bytes)
  | w, [] => w
  | w, f :: rest =>
    if IsBitDirectory f || f == ignoreFile then deleteLoop save patterns w rest
    else if IsIgnored f patterns then deleteLoop save patterns w rest
    else if save.files.contains f then deleteLoop save patterns w rest
    else deleteLoop save patterns (eraseKey w f) rest

/-- Step 7: restore every non-ignored manifest file from the target save. -/
def restoreLoop (st : RepoState) (hash : String) (patterns : String → Bool) :
    List (String × Bytes) → List String → Except Err (List (String × Bytes))
  | w, [] => .ok w
  | w, f :: rest =>
    if IsBitDirectory f then restoreLoop st hash patterns w rest
    else if f ≠ ignoreFile ∧ IsIgnored f patterns then restoreLoop st hash patterns w rest
    else
      match getFileContentFromSave { st with work := w } (resolveFuel st) f hash with
      | .error e => .error e
      | .ok c => restoreLoop st hash patterns (setKey w f (c.getD [])) rest

/-- Step 8: rewrite every snapshotted ignored file with its preserved
content. -/
def finalLoop : List (String × Bytes) → List (String × Bytes) → List (String × Bytes)
  | w, [] => w
  | w, (f, c) :: rest => finalLoop (setKey w f c) rest

/-- `Checkout`. -/
def Checkout (st : RepoState) (hash : String) (compile : Bytes → String → Bool) :
    Except Err RepoState :=
  if !st.initialized then .error .notInitialized
  else
    match st.saves.find? (fun s => s.hash == hash) with
    | none => .error .notFound
    | some save =>
      let currentFiles := listAllFiles st
      match restoreIgnore st save hash with
      | .error e => .error e
      | .ok work1 =>
        let patterns := GetIgnorePatterns work1 compile
        let snapshot := snapshotIgnored work1 currentFiles patterns
        let work2 := deleteLoop save patterns work1 currentFiles
        match restoreLoop st hash patterns work2 save.files with
        | .error e => .error e
        | .ok work3 => .ok { st with work := finalLoop work3 snapshot }

/-! ### Framing lemmas (object store) -/

/-- A framed record with header for content `c` and payload `t` (the record
`SaveFullFile` writes has `t = gzipCompress c`; corrupting payload bytes
yields other values of `t`). -/
def frameWith (c t : Bytes) : Bytes :=
  lenHeader 65 ++ encodeMetadata true (calculateFileHash c) ++ t

theorem encodeMetadata_hash_length (c : Bytes) :
    (encodeMetadata true (calculateFileHash c)).length = 65 := by
  simp [encodeMetadata]

theorem frameBlob_eq_frameWith (c : Bytes) :
    frameBlob c = frameWith c (gzipCompress c) := by
  simp [frameBlob, frameWith, encodeMetadata_hash_length]

theorem readBlob_frameWith (c t : Bytes) (hne : t ≠ []) :
    readBlob (frameWith c t) =
      match gzipDecompress t with
      | none => Except.error Err.decompressFail
      | some d =>
        if calculateFileHash d = calculateFileHash c then Except.ok d
        else Except.error Err.integrity := by
  have hlh : lenHeader 65 = [0, 0, 0, 65] := by norm_num [lenHeader]
  have hmb : (encodeMetadata true (calculateFileHash c)).length = 65 :=
    encodeMetadata_hash_length c
  have hlen : (frameWith c t).length = 69 + t.length := by
    simp [frameWith, hlh, encodeMetadata]
    omega
  have htpos : 0 < t.length := List.length_pos.mpr hne
  have hlen8 : 8 < (frameWith c t).length := by omega
  have hdrop4 : (frameWith c t).drop 4 = encodeMetadata true (calculateFileHash c) ++ t := by
    simp [frameWith, hlh]
  have hparse : parseLen (frameWith c t) = 65 := by
    simp [frameWith, hlh, parseLen, List.getD, encodeMetadata]
  have htake : ((frameWith c t).drop 4).take 65 = encodeMetadata true (calculateFileHash c) := by
    rw [hdrop4, ← hmb, List.take_left]
  have hdrop69 : (frameWith c t).drop 69 = t := by
    have : frameWith c t = (lenHeader 65 ++ encodeMetadata true (calculateFileHash c)) ++ t := by
      simp [frameWith]
    rw [this]
    have hl : (lenHeader 65 ++ encodeMetadata true (calculateFileHash c)).length = 69 := by
      simp [hlh, hmb]
    rw [← hl, List.drop_left]
  rw [readBlob]
  simp only [hparse, hlen8, if_pos]
  have hcond : 0 < 65 ∧ 65 < 1000 ∧ 4 + 65 < (frameWith c t).length := by
    refine ⟨by norm_num, by norm_num, ?_⟩
    omega
  rw [if_pos hcond, htake, decodeMetadata_encodeMetadata]
  simp only [if_pos rfl]
  have h69 : 4 + 65 = 69 := by norm_num
  rw [h69, hdrop69]
  simp

theorem readBlob_frameBlob (c : Bytes) : readBlob (frameBlob c) = .ok c := by
  rw [frameBlob_eq_frameWith, readBlob_frameWith c (gzipCompress c) (by simp [gzipCompress])]
  simp

/-- Claim C8: `SaveFullFile` always writes the framed record (fixed-width
length prefix, serialized metadata holding the compression flag and content
hash, compressed payload), and reading the same key back through
`GetFileContent` decompresses, verifies the hash, and returns exactly the
original bytes. -/
theorem C8_store_read_roundTrip (content : Bytes) (path saveHash : String)
    (objects : List ((String × String) × Bytes)) (work : List (String × Bytes))
    (h : saveHash ≠ "") :
    GetFileContent path saveHash (SaveFullFile content path saveHash objects) work =
      .ok content ∧
    frameBlob content =
      lenHeader (encodeMetadata true (calculateFileHash content)).length ++
        encodeMetadata true (calculateFileHash content) ++ gzipCompress content := by
  constructor
  · rw [GetFileContent]
    simp only [h, if_false, SaveFullFile, findKey_setKey_self, readBlob_frameBlob]
  · rfl

/-- Witness for C8 at a concrete input. -/
theorem C8_store_read_roundTrip_witness :
    GetFileContent "a.txt" "s1" (SaveFullFile [65, 66] "a.txt" "s1" []) [] =
      .ok [65, 66] :=
  (C8_store_read_roundTrip [65, 66] "a.txt" "s1" [] [] (by decide)).1

/-! ### Claim C1: corruption of stored blobs -/

/-- The blob of content `[65, 66]` with its first length-prefix byte
corrupted from 0 to 1 (the header hash is untouched). -/
def corruptedBlobC1 : Bytes := 1 :: (frameBlob [65, 66]).tail

/-- Claim C1 counterexample: corrupting the first byte of the stored frame
makes the length prefix fail validation, and `GetFileContent` silently
returns the corrupted raw bytes with no integrity error, which differ from
the stored content. -/
theorem C1_counterexample :
    GetFileContent "a.txt" "s1" [(("s1", "a.txt"), corruptedBlobC1)] [] =
      .ok corruptedBlobC1 ∧
    corruptedBlobC1 ≠ [65, 66] := by decide

/-- Claim C1 (amended): corrupting payload bytes while the framing header
(length prefix and metadata) stays intact is always detected: any successful
read of such a record returns exactly the content the header's hash names —
never corrupted bytes.  (Corrupting the framing header itself makes the
record unusable as a frame and the backward-compatible fallback returns the
raw bytes unchanged, as the counterexample shows.) -/
theorem C1_amended_headerIntact_noSilentCorruption (c t b : Bytes) (path saveHash : String)
    (objects : List ((String × String) × Bytes)) (work : List (String × Bytes))
    (hh : saveHash ≠ "") (ht : t ≠ [])
    (hobj : findKey objects (saveHash, path) = some (frameWith c t))
    (hok : GetFileContent path saveHash objects work = .ok b) :
    b = c := by
  rw [GetFileContent] at hok
  simp only [hh, if_false, hobj] at hok
  rw [readBlob_frameWith c t ht] at hok
  cases hgz : gzipDecompress t with
  | none =>
    simp only [hgz] at hok
    exact absurd hok (by simp)
  | some d =>
    simp only [hgz] at hok
    by_cases hhash : calculateFileHash d = calculateFileHash c
    · rw [if_pos hhash] at hok
      have hb : b = d := by
        injection hok with h'
        exact h'.symm
      rw [hb]
      exact calculateFileHash_inj hhash
    · rw [if_neg hhash] at hok
      exact absurd hok (by simp)

/-- Witness for the amended C1 at a concrete input. -/
theorem C1_amended_witness : ([7] : Bytes) = [7] :=
  C1_amended_headerIntact_noSilentCorruption [7] (gzipCompress [7]) [7] "a.txt" "s1"
    [(("s1", "a.txt"), frameWith [7] (gzipCompress [7]))] [] (by decide) (by decide)
    (by rw [findKey]; simp) (by rw [← frameBlob_eq_frameWith]; decide)

/-! ### Delta round trip (shared helper for C4 and C10) -/

/-- Replaying a delta in its persisted form (patch compressed by
`SaveDeltaSet`) against a resolver that returns the content the record's
`baseSaveHash` names — the working-directory content for new-file records,
whose `baseSaveHash` is empty — reconstructs the new content exactly. -/
theorem ApplyDelta_compressDelta_roundTrip (A : Option Bytes) (C : Bytes) (p base : String)
    (prov : String → String → Except Err (Option Bytes))
    (hbase : ∀ a, A = some a → prov p base = .ok (some a))
    (hnew : A = none → prov p "" = .ok (some C)) :
    ApplyDelta (compressDelta (CalculateDelta A (some C) p base)) prov = .ok (some C) := by
  cases A with
  | none =>
    have h := hnew rfl
    simp [CalculateDelta, compressDelta, ApplyDelta, h]
  | some a =>
    by_cases hac : a = C
    · subst hac
      have h := hbase a rfl
      simp [CalculateDelta, patchMakeText, compressDelta, ApplyDelta, h]
    · have h := hbase a rfl
      have hne : patchMakeText a C ≠ [] := by simp [patchMakeText, hac]
      simp only [CalculateDelta, if_neg hne]
      simp [compressDelta, ApplyDelta, h, decompressString_compressString,
        patchFromText_patchMakeText hac, patchApply]

/-! ### Claim C4: compute/apply round trip -/

/-- The resolver of the C4 counterexample: returns the prior content
`[0]` of the file at the base save, as the claim requires. -/
def provC4 : String → String → Except Err (Option Bytes) := fun _ _ => .ok (some [0])

/-- Claim C4 counterexample: applying the delta exactly as produced by
`CalculateDelta` (patch text uncompressed but `compressed = true`) fails:
`ApplyDelta` tries to hex-decode/gunzip the raw edit script and errors, so
the round trip does not reconstruct the new content `[1]`. -/
theorem C4_counterexample :
    ApplyDelta (CalculateDelta (some [0]) (some [1]) "a.txt" "base") provC4 =
      .error .decompressFail ∧
    ApplyDelta (CalculateDelta (some [0]) (some [1]) "a.txt" "base") provC4 ≠
      .ok (some [1]) := by decide

/-- Claim C4 (amended): the round trip holds for the delta in its persisted
form — after `SaveDeltaSet`'s patch compression (`compressDelta`), which is
applied before any delta is stored and hence before `ApplyDelta` ever sees
it in the system: for every content C and prior content A (including
A absent), applying the compressed delta through a resolver that returns
the base save's content (the working-directory content when A is absent,
the convention of `GetFileContent` for the empty save hash) reconstructs
exactly C. -/
theorem C4_amended_roundTrip (A : Option Bytes) (C : Bytes) (p base : String)
    (prov : String → String → Except Err (Option Bytes))
    (hbase : ∀ a, A = some a → prov p base = .ok (some a))
    (hnew : A = none → prov p "" = .ok (some C)) :
    ApplyDelta (compressDelta (CalculateDelta A (some C) p base)) prov = .ok (some C) :=
  ApplyDelta_compressDelta_roundTrip A C p base prov hbase hnew

/-- Witness for the amended C4 at a concrete input. -/
theorem C4_amended_witness :
    ApplyDelta (compressDelta (CalculateDelta (some [0]) (some [1]) "a.txt" "base")) provC4 =
      .ok (some [1]) :=
  C4_amended_roundTrip (some [0]) [1] "a.txt" "base" provC4
    (fun a ha => by injection ha with ha'; rw [← ha']; rfl) (fun h => by cases h)

/-! ### Claim C6: error behavior of patch application -/

/-- The resolver of the C6 counterexample: returns `[5]`, which is not the
base content `[0]` the edit script was computed against. -/
def provC6 : String → String → Except Err (Option Bytes) := fun _ _ => .ok (some [5])

/-- Claim C6 counterexample: a well-formed compressed patch that cannot be
applied to the resolved base (the fuzzy application fails and returns the
base unchanged) does not produce a `PatchError`: the discarded success
flags send the wrong result into the hash check, which reports
`IntegrityError` instead. -/
theorem C6_counterexample :
    ApplyDelta (compressDelta (CalculateDelta (some [0]) (some [1]) "a.txt" "base")) provC6 =
      .error .integrity ∧
    (Except.error Err.integrity : Except Err (Option Bytes)) ≠ .error .parseFail := by decide

/-- Claim C6 (amended): for a delta record carrying a patch, `ApplyDelta`
fetches the base content, decompresses the patch when marked compressed,
fails with `PatchError` when the edit script cannot be parsed, and never
returns a result whose hash differs from the record's `contentHash` — an
edit script that parses but cannot be applied is applied fuzzily and the
wrong result is rejected by the hash check as `IntegrityError`. -/
theorem C6_amended_patch_errors (delta : DeltaInfo)
    (prov : String → String → Except Err (Option Bytes)) (pt : Bytes)
    (hn : delta.isNew = false) (hd : delta.isDeleted = false)
    (hp : delta.patches = some pt) :
    (∀ b, ApplyDelta delta prov = .ok b →
      ∃ r, b = some r ∧ calculateFileHash r = delta.contentHash) ∧
    (∀ bc pt', prov delta.path delta.baseSaveHash = .ok bc →
      (if delta.compressed then decompressString pt else some pt) = some pt' →
      patchFromText pt' = none →
      ApplyDelta delta prov = .error .parseFail) := by
  constructor
  · intro b hok
    rw [ApplyDelta] at hok
    simp only [hn, hd, hp, Bool.false_eq_true, if_false] at hok
    cases hprov : prov delta.path delta.baseSaveHash with
    | error e => simp [hprov] at hok
    | ok bc =>
      simp only [hprov] at hok
      cases hcomp : delta.compressed with
      | false =>
        simp only [hcomp, Bool.false_eq_true, if_false] at hok
        cases hpt : patchFromText pt with
        | none => simp [hpt] at hok
        | some patches =>
          simp only [hpt] at hok
          by_cases hhash :
              calculateFileHash (patchApply patches (bc.getD [])).1 = delta.contentHash
          · simp only [if_pos hhash] at hok
            exact ⟨(patchApply patches (bc.getD [])).1, by injection hok with h'; exact h'.symm,
              hhash⟩
          · simp [if_neg hhash] at hok
      | true =>
        simp only [hcomp, if_true] at hok
        cases hdec : decompressString pt with
        | none => simp [hdec] at hok
        | some pt' =>
          simp only [hdec] at hok
          cases hpt : patchFromText pt' with
          | none => simp [hpt] at hok
          | some patches =>
            simp only [hpt] at hok
            by_cases hhash :
                calculateFileHash (patchApply patches (bc.getD [])).1 = delta.contentHash
            · simp only [if_pos hhash] at hok
              exact ⟨(patchApply patches (bc.getD [])).1, by injection hok with h'; exact h'.symm,
                hhash⟩
            · simp [if_neg hhash] at hok
  · intro bc pt' hprov hdec hpt
    rw [ApplyDelta]
    simp only [hn, hd, hp, Bool.false_eq_true, if_false, hprov]
    cases hcomp : delta.compressed with
    | false =>
      simp only [hcomp, Bool.false_eq_true, if_false]
      have : pt' = pt := by simpa [hcomp] using hdec.symm
      rw [← this, hpt]
    | true =>
      simp only [hcomp, if_true]
      have : decompressString pt = some pt' := by simpa [hcomp] using hdec
      simp [this, hpt]

/-- Witness for the amended C6 at a concrete input. -/
theorem C6_amended_witness :
    ∃ r, (some [1] : Option Bytes) = some r ∧
      calculateFileHash r =
        (compressDelta (CalculateDelta (some [0]) (some [1]) "a.txt" "base")).contentHash :=
  (C6_amended_patch_errors
      (compressDelta (CalculateDelta (some [0]) (some [1]) "a.txt" "base")) provC4
      (compressString (patchMakeText [0] [1])) (by decide) (by decide) (by decide)).1
    (some [1]) (by decide)

/-! ### Claim C10: absent vs empty content -/

/-- Claim C10: only the absent sentinel (`nil`) produces `isNew`/`isDeleted`
records; a present zero-byte buffer is ordinary content, so a present empty
file is recorded as modified or unmodified (never a deletion) and its
persisted delta reconstructs the empty file. -/
theorem C10_absent_vs_empty (a c0 : Bytes) (p baseHash : String)
    (prov : String → String → Except Err (Option Bytes))
    (hprov : prov p baseHash = .ok (some a)) :
    (CalculateDelta (some a) (some []) p baseHash).isNew = false ∧
    (CalculateDelta (some a) (some []) p baseHash).isDeleted = false ∧
    (CalculateDelta none (some c0) p baseHash).isNew = true ∧
    (CalculateDelta (some a) none p baseHash).isDeleted = true ∧
    ApplyDelta (compressDelta (CalculateDelta (some a) (some []) p baseHash)) prov =
      .ok (some []) := by
  refine ⟨by simp [CalculateDelta], by simp [CalculateDelta], by simp [CalculateDelta],
    by simp [CalculateDelta], ?_⟩
  exact ApplyDelta_compressDelta_roundTrip (some a) [] p baseHash prov
    (fun x hx => by injection hx with hx'; rw [← hx']; exact hprov) (fun h => by cases h)

/-- Witness for C10 at a concrete input. -/
theorem C10_absent_vs_empty_witness :
    ApplyDelta (compressDelta (CalculateDelta (some [3]) (some []) "a.txt" "base"))
      (fun _ _ => .ok (some [3])) = .ok (some []) :=
  (C10_absent_vs_empty [3] [9] "a.txt" "base" (fun _ _ => .ok (some [3])) rfl).2.2.2.2

/-! ### SaveState destructuring (shared by C7, C9, C3) -/

/-- The record `SaveState` appends on success. -/
def newSaveRecord (st : RepoState) (name : String) (ts : Nat) (h : String) : Save :=
  Save.mk h name ts (getFilesToSave st (fun _ _ => false)) ""

theorem processDeleted_deltas_mono (st : RepoState)
    (objectsNow : List ((String × String) × Bytes)) (baseHash : String) :
    ∀ (L : List String) (acc out : List DeltaInfo),
      processDeleted st objectsNow baseHash L acc = .ok out → ∀ d ∈ acc, d ∈ out := by
  intro L
  induction L with
  | nil =>
    intro acc out h d hd
    rw [processDeleted] at h
    injection h with h'
    rw [← h']
    exact hd
  | cons g L' ih =>
    intro acc out h d hd
    rw [processDeleted] at h
    cases hg : getFileContentFromSave
        (RepoState.mk st.initialized st.work objectsNow st.deltaSets st.saves)
        (resolveFuel st) g baseHash with
    | error e =>
      rw [show ({ st with objects := objectsNow } : RepoState) =
        RepoState.mk st.initialized st.work objectsNow st.deltaSets st.saves from rfl, hg] at h
      cases h
    | ok baseContent =>
      rw [show ({ st with objects := objectsNow } : RepoState) =
        RepoState.mk st.initialized st.work objectsNow st.deltaSets st.saves from rfl, hg] at h
      exact ih _ out h d (List.mem_append_left _ hd)

theorem saveFilesAsDelta_ok_parts (st : RepoState) (files : List String) (saveHash : String)
    (baseSave : Option Save) (st1 : RepoState)
    (h : saveFilesAsDelta st files saveHash baseSave = .ok st1) :
    ∃ objects' deltas allDeltas,
      processAll st saveHash baseSave files (st.objects, []) = .ok (objects', deltas) ∧
      (∀ d ∈ deltas, d ∈ allDeltas) ∧
      st1 = RepoState.mk st.initialized st.work objects'
        (SaveDeltaSet (DeltaSet.mk saveHash allDeltas) st.deltaSets) st.saves := by
  simp only [saveFilesAsDelta] at h
  cases hp : processAll st saveHash baseSave files (st.objects, []) with
  | error e => simp [hp] at h
  | ok pr =>
    obtain ⟨objects', deltas⟩ := pr
    simp only [hp] at h
    cases baseSave with
    | none =>
      refine ⟨objects', deltas, deltas, rfl, fun d hd => hd, ?_⟩
      simp only at h
      injection h with h'
      exact h'.symm
    | some b =>
      split at h
      · exact absurd h (by simp)
      · next allD hDel =>
        injection h with h'
        exact ⟨objects', deltas, allD,  rfl,
          processDeleted_deltas_mono st objects' b.hash _ deltas allD hDel, h'.symm⟩

theorem SaveState_ok_parts (st : RepoState) (name : String) (ts : Nat)
    (compile : Bytes → String → Bool) (h : String) (st' : RepoState)
    (hs : SaveState st name ts compile = .ok (h, st')) :
    st.initialized = true ∧
    h = createSaveHash name ts (getFilesToSave st compile) ∧
    ∃ st1, saveFilesAsDelta st (getFilesToSave st compile) h st.saves.getLast? = .ok st1 ∧
      st'.initialized = st1.initialized ∧ st'.work = st1.work ∧
      st'.objects = st1.objects ∧ st'.deltaSets = st1.deltaSets ∧
      st'.saves = st1.saves ++
        [Save.mk h name ts (getFilesToSave st compile)
          (match st.saves.getLast? with | some b => b.hash | none => "")] := by
  simp only [SaveState] at hs
  by_cases hinit : st.initialized
  · simp only [hinit, Bool.not_true, Bool.false_eq_true, if_false] at hs
    by_cases hempty : (getFilesToSave st compile).isEmpty
    · simp [hempty] at hs
    · simp only [Bool.not_eq_true] at hempty
      simp only [hempty, Bool.false_eq_true, if_false] at hs
      cases hsf : saveFilesAsDelta st (getFilesToSave st compile)
          (createSaveHash name ts (getFilesToSave st compile)) st.saves.getLast? with
      | error e => simp [hsf] at hs
      | ok st1 =>
        simp only [hsf] at hs
        injection hs with hs'
        have hh : h = createSaveHash name ts (getFilesToSave st compile) :=
          (congrArg Prod.fst hs').symm
        have hst : st' = _ := (congrArg Prod.snd hs').symm
        refine ⟨hinit, hh, st1, by rw [hh]; exact hsf, ?_⟩
        rw [hst, ← hh]
        exact ⟨rfl, rfl, rfl, rfl, rfl⟩
  · simp only [Bool.not_eq_true] at hinit
    simp [hinit] at hs

/-! ### Claim C7: catalog append -/

/-- Claim C7: every successful save appends exactly one record at the end
of the catalog, whose `baseSaveHash` is the id of the record that was last
at the start of the save (empty exactly when the catalog was empty);
records already in the catalog are untouched, so the history is a single
linear chain. -/
theorem SaveState_saves_eq (st : RepoState) (name : String) (ts : Nat)
    (compile : Bytes → String → Bool) (h : String) (st' : RepoState)
    (hs : SaveState st name ts compile = .ok (h, st')) :
    st'.saves = st.saves ++
      [Save.mk h name ts (getFilesToSave st compile)
        (match st.saves.getLast? with | some b => b.hash | none => "")] := by
  obtain ⟨-, -, st1, hsf, -, -, -, -, hsaves⟩ := SaveState_ok_parts st name ts compile h st' hs
  obtain ⟨objects', deltas, allDeltas, -, -, hst1⟩ :=
    saveFilesAsDelta_ok_parts st (getFilesToSave st compile) h st.saves.getLast? st1 hsf
  rw [hsaves, hst1]

theorem C7_catalog_append (st : RepoState) (name : String) (ts : Nat)
    (compile : Bytes → String → Bool) (h : String) (st' : RepoState)
    (hs : SaveState st name ts compile = .ok (h, st')) :
    st'.saves = st.saves ++
      [Save.mk h name ts (getFilesToSave st compile)
        (match st.saves.getLast? with | some b => b.hash | none => "")] :=
  SaveState_saves_eq st name ts compile h st' hs

/-- Witness for C7 at a concrete input. -/
theorem C7_catalog_append_witness :
    ∃ st' : RepoState,
      SaveState (RepoState.mk true [("a.txt", [65])] [] [] []) "first" 0 (fun _ _ => false) =
        .ok (createSaveHash "first" 0 ["a.txt"], st') ∧
      st'.saves = [Save.mk (createSaveHash "first" 0 ["a.txt"]) "first" 0 ["a.txt"] ""] := by
  have hsave :
      SaveState (RepoState.mk true [("a.txt", [65])] [] [] []) "first" 0 (fun _ _ => false) =
      .ok (createSaveHash "first" 0 ["a.txt"],
        RepoState.mk true [("a.txt", [65])]
          (SaveFullFile [65] "a.txt" (createSaveHash "first" 0 ["a.txt"]) [])
          (SaveDeltaSet
            (DeltaSet.mk (createSaveHash "first" 0 ["a.txt"])
              [CalculateDelta none (some [65]) "a.txt" ""]) [])
          [Save.mk (createSaveHash "first" 0 ["a.txt"]) "first" 0 ["a.txt"] ""]) := by decide
  refine ⟨_, hsave, ?_⟩
  have hc := C7_catalog_append (RepoState.mk true [("a.txt", [65])] [] [] []) "first" 0
    (fun _ _ => false) (createSaveHash "first" 0 ["a.txt"]) _ hsave
  rw [hc]
  rfl

/-! ### Claim C9: the ignore-spec file in the manifest -/

theorem mem_getFilesToSave (st : RepoState) (compile : Bytes → String → Bool) (p : String) :
    p ∈ getFilesToSave st compile ↔
      p ∈ st.work.map Prod.fst ∧ IsBitDirectory p = false ∧
        (p = ignoreFile ∨ IsIgnored p (GetIgnorePatterns st.work compile) = false) := by
  simp only [getFilesToSave, List.mem_filter]
  refine and_congr_right' ?_
  by_cases hb : IsBitDirectory p <;> by_cases hi : p = ignoreFile <;>
    simp [hb, hi, IsIgnored]

/-- Claim C9: `SaveState` always includes the ignore-spec file in the new
save's manifest whenever it exists in the working tree (even when it
matches an ignore pattern it itself defines), and every other path matching
an ignore pattern is excluded from the manifest. -/
theorem C9_manifest_ignoreSpec (st : RepoState) (name : String) (ts : Nat)
    (compile : Bytes → String → Bool) (h : String) (st' : RepoState)
    (hs : SaveState st name ts compile = .ok (h, st')) :
    ∃ m, st'.saves.getLast? = some m ∧ m.files = getFilesToSave st compile ∧
      (ignoreFile ∈ st.work.map Prod.fst → ignoreFile ∈ m.files) ∧
      (∀ p, p ≠ ignoreFile →
        (p ∈ m.files ↔ p ∈ st.work.map Prod.fst ∧ IsBitDirectory p = false ∧
          IsIgnored p (GetIgnorePatterns st.work compile) = false)) := by
  have hsaves := SaveState_saves_eq st name ts compile h st' hs
  refine ⟨_, by rw [hsaves]; exact List.getLast?_concat _, rfl, ?_, ?_⟩
  · intro hmem
    rw [mem_getFilesToSave]
    exact ⟨hmem, by decide, Or.inl rfl⟩
  · intro p hp
    rw [mem_getFilesToSave]
    constructor
    · rintro ⟨h1, h2, h3 | h3⟩
      · exact absurd h3 hp
      · exact ⟨h1, h2, h3⟩
    · rintro ⟨h1, h2, h3⟩
      exact ⟨h1, h2, Or.inr h3⟩

/-- Witness for C9 at a concrete input: a working tree holding the
ignore-spec file (whose patterns ignore it and `x.log`) and one ordinary
file. -/
theorem C9_manifest_ignoreSpec_witness :
    ∃ m : Save,
      ([Save.mk (createSaveHash "s" 0 [".bitignore", "a.txt"]) "s" 0
        [".bitignore", "a.txt"] ""].getLast? = some m) ∧
      ignoreFile ∈ m.files ∧ "x.log" ∉ m.files := by
  have compX : Bytes → String → Bool := fun _ p => p == ".bitignore" || p == "x.log"
  have hsave :
      SaveState (RepoState.mk true [(".bitignore", [1]), ("a.txt", [65]), ("x.log", [9])] [] [] [])
        "s" 0 (fun _ p => p == ".bitignore" || p == "x.log") =
      .ok (createSaveHash "s" 0 [".bitignore", "a.txt"],
        RepoState.mk true [(".bitignore", [1]), ("a.txt", [65]), ("x.log", [9])]
          (SaveFullFile [65] "a.txt" (createSaveHash "s" 0 [".bitignore", "a.txt"])
            (SaveFullFile [1] ".bitignore" (createSaveHash "s" 0 [".bitignore", "a.txt"]) []))
          (SaveDeltaSet
            (DeltaSet.mk (createSaveHash "s" 0 [".bitignore", "a.txt"])
              [CalculateDelta none (some [1]) ".bitignore" "",
               CalculateDelta none (some [65]) "a.txt" ""]) [])
          [Save.mk (createSaveHash "s" 0 [".bitignore", "a.txt"]) "s" 0
            [".bitignore", "a.txt"] ""]) := by decide
  obtain ⟨m, hm, hfiles, hign, hother⟩ :=
    C9_manifest_ignoreSpec
      (RepoState.mk true [(".bitignore", [1]), ("a.txt", [65]), ("x.log", [9])] [] [] [])
      "s" 0 (fun _ p => p == ".bitignore" || p == "x.log")
      (createSaveHash "s" 0 [".bitignore", "a.txt"]) _ hsave
  refine ⟨m, by simpa using hm, hign (by simp [ignoreFile]), ?_⟩
  intro hx
  have := (hother "x.log" (by decide)).mp hx
  simp [GetIgnorePatterns, IsIgnored, findKey, ignoreFile] at this

/-! ### Checkout destructuring and phase lemmas (shared by C2, C5) -/

theorem Checkout_ok_parts (st : RepoState) (hash : String) (compile : Bytes → String → Bool)
    (st' : RepoState) (hc : Checkout st hash compile = .ok st') :
    st.initialized = true ∧
    ∃ save work1 work3,
      st.saves.find? (fun s => s.hash == hash) = some save ∧
      restoreIgnore st save hash = .ok work1 ∧
      restoreLoop st hash (GetIgnorePatterns work1 compile)
        (deleteLoop save (GetIgnorePatterns work1 compile) work1 (listAllFiles st))
        save.files = .ok work3 ∧
      st' = RepoState.mk st.initialized
        (finalLoop work3
          (snapshotIgnored work1 (listAllFiles st) (GetIgnorePatterns work1 compile)))
        st.objects st.deltaSets st.saves := by
  simp only [Checkout] at hc
  by_cases hinit : st.initialized
  · simp only [hinit, Bool.not_true, Bool.false_eq_true, if_false] at hc
    cases hfind : st.saves.find? (fun s => s.hash == hash) with
    | none => simp [hfind] at hc
    | some save =>
      simp only [hfind] at hc
      cases hri : restoreIgnore st save hash with
      | error e => simp [hri] at hc
      | ok work1 =>
        simp only [hri] at hc
        cases hrl : restoreLoop st hash (GetIgnorePatterns work1 compile)
            (deleteLoop save (GetIgnorePatterns work1 compile) work1 (listAllFiles st))
            save.files with
        | error e => simp [hrl] at hc
        | ok work3 =>
          simp only [hrl] at hc
          injection hc with hc'
          refine ⟨hinit, save, work1, work3, rfl, hri, hrl, ?_⟩
          rw [hinit]
          exact hc'.symm
  · simp only [Bool.not_eq_true] at hinit
    simp [hinit] at hc

theorem restoreIgnore_preserves (st : RepoState) (save : Save) (hash : String)
    (work1 : List (String × Bytes)) (f : String)
    (h : restoreIgnore st save hash = .ok work1) (hf : f ≠ ignoreFile) :
    findKey work1 f = findKey st.work f := by
  rw [restoreIgnore] at h
  split at h
  · cases hg : getFileContentFromSave st (resolveFuel st) ignoreFile hash with
    | error e => rw [hg] at h; cases h
    | ok c =>
      rw [hg] at h
      injection h with h'
      rw [← h', findKey_setKey_ne _ _ _ _ hf]
  · injection h with h'
    rw [← h']

theorem snapshotIgnored_mem (work1 : List (String × Bytes)) (currentFiles : List String)
    (patterns : String → Bool) (f : String) (c : Bytes)
    (hf : f ∈ currentFiles) (hb : IsBitDirectory f = false) (hif : f ≠ ignoreFile)
    (hp : patterns f = true) (hw : findKey work1 f = some c) :
    (f, c) ∈ snapshotIgnored work1 currentFiles patterns := by
  rw [snapshotIgnored, List.mem_filterMap]
  refine ⟨f, hf, ?_⟩
  simp [hb, hif, IsIgnored, hp, hw]

theorem snapshotIgnored_fst_mem (work1 : List (String × Bytes)) (currentFiles : List String)
    (patterns : String → Bool) (f : String)
    (h : f ∈ (snapshotIgnored work1 currentFiles patterns).map Prod.fst) :
    f ∈ currentFiles ∧ patterns f = true ∧ f ≠ ignoreFile := by
  simp only [snapshotIgnored, List.map_filterMap, List.mem_filterMap] at h
  obtain ⟨g, hg, hopt⟩ := h
  by_cases hb : IsBitDirectory g || g == ignoreFile
  · simp [hb] at hopt
  · simp only [hb, Bool.false_eq_true, if_false] at hopt
    by_cases hig : IsIgnored g patterns
    · simp only [hig, if_true] at hopt
      cases hfk : findKey work1 g with
      | none => simp [hfk] at hopt
      | some c =>
        simp only [hfk, Option.map_some, Option.map_map] at hopt
        have hgf : g = f := by
          simpa using hopt
        subst hgf
        simp only [Bool.or_eq_true, not_or] at hb
        exact ⟨hg, hig, by simpa using hb.2⟩
    · simp [hig] at hopt
  
theorem snapshotIgnored_fst_nodup (work1 : List (String × Bytes)) (L : List String)
    (patterns : String → Bool) (h : L.Nodup) :
    ((snapshotIgnored work1 L patterns).map Prod.fst).Nodup := by
  induction L with
  | nil => simp [snapshotIgnored]
  | cons g L' ih =>
    obtain ⟨hg, hL'⟩ := List.nodup_cons.mp h
    rw [snapshotIgnored, List.filterMap_cons]
    split
    · exact ih hL'
    · next v hv =>
      have hvfst : v.1 = g := by
        by_cases hb : IsBitDirectory g || g == ignoreFile
        · simp [hb] at hv
        · simp only [hb, Bool.false_eq_true, if_false] at hv
          by_cases hig : IsIgnored g patterns
          · simp only [hig, if_true] at hv
            cases hfk : findKey work1 g with
            | none => simp [hfk] at hv
            | some c => rw [hfk] at hv; injection hv with hv'; rw [← hv']
          · simp [hig] at hv
      rw [List.map_cons, List.nodup_cons]
      refine ⟨fun hmem => ?_, ih hL'⟩
      rw [hvfst] at hmem
      exact hg (snapshotIgnored_fst_mem work1 L' patterns g hmem).1

theorem deleteLoop_findKey_none (save : Save) (patterns : String → Bool)
    (w : List (String × Bytes)) (L : List String) (f : String)
    (h : findKey w f = none) :
    findKey (deleteLoop save patterns w L) f = none := by
  induction L generalizing w with
  | nil => simpa [deleteLoop]
  | cons g L' ih =>
    rw [deleteLoop]
    split
    · exact ih w h
    · split
      · exact ih w h
      · split
        · exact ih w h
        · refine ih (eraseKey w g) ?_
          rw [findKey_eraseKey]
          split <;> simp [h]

theorem deleteLoop_preserves (save : Save) (patterns : String → Bool)
    (w : List (String × Bytes)) (L : List String) (f : String)
    (hp : patterns f = true ∨ f = ignoreFile ∨ f ∈ save.files ∨ IsBitDirectory f = true) :
    findKey (deleteLoop save patterns w L) f = findKey w f := by
  induction L generalizing w with
  | nil => rw [deleteLoop]
  | cons g L' ih =>
    rw [deleteLoop]
    split
    · exact ih w
    · split
      · exact ih w
      · split
        · exact ih w
        · rw [ih (eraseKey w g)]
          refine findKey_eraseKey_ne _ _ _ fun hfg => ?_
          subst hfg
          next h1 h2 h3 =>
          rcases hp with hp | hp | hp | hp
          · exact h2 (by simp [IsIgnored, hp])
          · exact h1 (by simp [hp])
          · exact h3 (by simpa using hp)
          · exact h1 (by simp [hp])

theorem deleteLoop_removes (save : Save) (patterns : String → Bool)
    (w : List (String × Bytes)) (L : List String) (f : String)
    (hf : f ∈ L) (hb : IsBitDirectory f = false) (hif : f ≠ ignoreFile)
    (hp : patterns f = false) (hs : f ∉ save.files) :
    findKey (deleteLoop save patterns w L) f = none := by
  induction L generalizing w with
  | nil => simp at hf
  | cons g L' ih =>
    rw [deleteLoop]
    by_cases hgf : g = f
    · subst hgf
      rw [if_neg (by simp [hb, hif]), if_neg (by simp [IsIgnored, hp]),
        if_neg (by simpa using hs)]
      by_cases hfL : g ∈ L'
      · exact ih _ hfL
      · exact deleteLoop_findKey_none save patterns _ L' g (findKey_eraseKey_self w g)
    · have hf' : f ∈ L' := by
        rcases List.mem_cons.mp hf with h0 | h0
        · exact absurd h0.symm hgf
        · exact h0
      split
      · exact ih w hf'
      · split
        · exact ih w hf'
        · split
          · exact ih w hf'
          · exact ih (eraseKey w g) hf'

theorem restoreLoop_not_written (st : RepoState) (hash : String) (patterns : String → Bool)
    (w : List (String × Bytes)) (L : List String) (w' : List (String × Bytes)) (f : String)
    (h : restoreLoop st hash patterns w L = .ok w') (hf : f ∉ L) :
    findKey w' f = findKey w f := by
  induction L generalizing w with
  | nil =>
    rw [restoreLoop] at h
    injection h with h'
    rw [← h']
  | cons g L' ih =>
    have hgf : g ≠ f := fun hgf => hf (by rw [hgf]; exact List.mem_cons_self ..)
    have hf' : f ∉ L' := fun hf' => hf (List.mem_cons_of_mem _ hf')
    rw [restoreLoop] at h
    split at h
    · exact ih w h hf'
    · split at h
      · exact ih w h hf'
      · cases hg : getFileContentFromSave { st with work := w } (resolveFuel st) g hash with
        | error e => rw [hg] at h; cases h
        | ok c =>
          rw [hg] at h
          rw [ih _ h hf', findKey_setKey_ne _ _ _ _ (Ne.symm hgf)]

theorem restoreLoop_ignored_preserved (st : RepoState) (hash : String)
    (patterns : String → Bool) (w : List (String × Bytes)) (L : List String)
    (w' : List (String × Bytes)) (f : String)
    (h : restoreLoop st hash patterns w L = .ok w')
    (hig : IsIgnored f patterns = true) (hif : f ≠ ignoreFile) :
    findKey w' f = findKey w f := by
  induction L generalizing w with
  | nil =>
    rw [restoreLoop] at h
    injection h with h'
    rw [← h']
  | cons g L' ih =>
    rw [restoreLoop] at h
    split at h
    · exact ih w h
    · split at h
      · exact ih w h
      · cases hg : getFileContentFromSave { st with work := w } (resolveFuel st) g hash with
        | error e => rw [hg] at h; cases h
        | ok c =>
          rw [hg] at h
          have hgf : g ≠ f := by
            intro hgf
            subst hgf
            next h1 h2 =>
            exact h2 ⟨hif, hig⟩
          rw [ih _ h, findKey_setKey_ne _ _ _ _ (Ne.symm hgf)]

theorem finalLoop_preserves (w : List (String × Bytes)) (snap : List (String × Bytes))
    (f : String) (hf : f ∉ snap.map Prod.fst) :
    findKey (finalLoop w snap) f = findKey w f := by
  induction snap generalizing w with
  | nil => rw [finalLoop]
  | cons e rest ih =>
    obtain ⟨g, c⟩ := e
    have hgf : g ≠ f := fun hgf => hf (by simp [hgf])
    have hf' : f ∉ rest.map Prod.fst := fun hf' => hf (by simp [hf'])
    rw [finalLoop, ih _ hf', findKey_setKey_ne _ _ _ _ (Ne.symm hgf)]

theorem finalLoop_writes (w : List (String × Bytes)) (snap : List (String × Bytes))
    (f : String) (c : Bytes) (hmem : (f, c) ∈ snap)
    (hnodup : (snap.map Prod.fst).Nodup) :
    findKey (finalLoop w snap) f = some c := by
  induction snap generalizing w with
  | nil => simp at hmem
  | cons e rest ih =>
    obtain ⟨g, d⟩ := e
    rw [List.map_cons, List.nodup_cons] at hnodup
    rcases List.mem_cons.mp hmem with heq | hmem'
    · injection heq with h1 h2
      subst h1; subst h2
      rw [finalLoop]
      rw [finalLoop_preserves _ rest f hnodup.1, findKey_setKey_self]
    · rw [finalLoop]
      exact ih _ hmem' hnodup.2

theorem mem_listAllFiles (st : RepoState) (f : String) :
    f ∈ listAllFiles st ↔ f ∈ st.work.map Prod.fst ∧ IsBitDirectory f = false := by
  simp [listAllFiles, List.mem_filter]

theorem listAllFiles_nodup (st : RepoState) (h : (st.work.map Prod.fst).Nodup) :
    (listAllFiles st).Nodup := h.filter _

/-! ### Claim C2: ignored files are preserved by checkout -/

/-- Claim C2: for every successful checkout, a file that matches the
effective (target-state) ignore patterns — those compiled after the
ignore-spec restore step — and is not the ignore-spec file itself is
neither deleted nor overwritten: its content after `Checkout` is
byte-for-byte its content before.  (This covers in particular ignored
files absent from both the current and target manifests.) -/
theorem C2_ignored_files_preserved (st : RepoState) (hash : String)
    (compile : Bytes → String → Bool) (st' : RepoState) (save : Save)
    (work1 : List (String × Bytes)) (f : String) (c : Bytes)
    (hnd : (st.work.map Prod.fst).Nodup)
    (hc : Checkout st hash compile = .ok st')
    (hsave : st.saves.find? (fun s => s.hash == hash) = some save)
    (hri : restoreIgnore st save hash = .ok work1)
    (hig : IsIgnored f (GetIgnorePatterns work1 compile) = true)
    (hif : f ≠ ignoreFile) (hb : IsBitDirectory f = false)
    (hw : findKey st.work f = some c) :
    findKey st'.work f = some c := by
  obtain ⟨hinit, save', work1', work3, hsave', hri', hrl, hst'⟩ :=
    Checkout_ok_parts st hash compile st' hc
  rw [hsave'] at hsave
  injection hsave with hsv
  subst hsv
  rw [hri'] at hri
  injection hri with hw1
  subst hw1
  have hw1f : findKey work1' f = some c := by
    rw [restoreIgnore_preserves st save' hash work1' f hri' hif]
    exact hw
  have hfl : f ∈ listAllFiles st :=
    (mem_listAllFiles st f).mpr ⟨mem_keys_of_findKey_eq_some _ _ _ hw, hb⟩
  have hsnap := snapshotIgnored_mem work1' (listAllFiles st)
    (GetIgnorePatterns work1' compile) f c hfl hb hif (by simpa [IsIgnored] using hig) hw1f
  have hnodup := snapshotIgnored_fst_nodup work1' (listAllFiles st)
    (GetIgnorePatterns work1' compile) (listAllFiles_nodup st hnd)
  rw [hst']
  exact finalLoop_writes _ _ f c hsnap hnodup

/-! ### Claim C5: deletion sync -/

/-- Claim C5: after a successful checkout of a target save, a file present
in an earlier save's manifest and currently on disk but absent from the
target manifest is removed from the working tree — unless it currently
matches an ignore pattern, in which case it is left in place with its
content intact. -/
theorem C5_deletion_sync (st : RepoState) (hash : String)
    (compile : Bytes → String → Bool) (st' : RepoState) (save earlier : Save)
    (work1 : List (String × Bytes)) (f : String) (c : Bytes)
    (hnd : (st.work.map Prod.fst).Nodup)
    (hc : Checkout st hash compile = .ok st')
    (hsave : st.saves.find? (fun s => s.hash == hash) = some save)
    (hri : restoreIgnore st save hash = .ok work1)
    (hearlier : earlier ∈ st.saves) (hfS1 : f ∈ earlier.files)
    (hw : findKey st.work f = some c)
    (hif : f ≠ ignoreFile) (hb : IsBitDirectory f = false)
    (hnotin : f ∉ save.files) :
    (IsIgnored f (GetIgnorePatterns work1 compile) = false → findKey st'.work f = none) ∧
    (IsIgnored f (GetIgnorePatterns work1 compile) = true → findKey st'.work f = some c) := by
  obtain ⟨hinit, save', work1', work3, hsave', hri', hrl, hst'⟩ :=
    Checkout_ok_parts st hash compile st' hc
  rw [hsave'] at hsave
  injection hsave with hsv
  subst hsv
  rw [hri'] at hri
  injection hri with hw1
  subst hw1
  have hw1f : findKey work1' f = some c := by
    rw [restoreIgnore_preserves st save' hash work1' f hri' hif]
    exact hw
  have hfl : f ∈ listAllFiles st :=
    (mem_listAllFiles st f).mpr ⟨mem_keys_of_findKey_eq_some _ _ _ hw, hb⟩
  constructor
  · intro hig
    have hdel : findKey
        (deleteLoop save' (GetIgnorePatterns work1' compile) work1' (listAllFiles st)) f =
        none :=
      deleteLoop_removes save' (GetIgnorePatterns work1' compile) work1' (listAllFiles st) f
        hfl hb hif (by simpa [IsIgnored] using hig) hnotin
    have hw3 : findKey work3 f = none := by
      rw [restoreLoop_not_written st hash (GetIgnorePatterns work1' compile) _
        save'.files work3 f hrl hnotin]
      exact hdel
    rw [hst']
    have hnot : f ∉ (snapshotIgnored work1' (listAllFiles st)
        (GetIgnorePatterns work1' compile)).map Prod.fst := by
      intro hmem
      have := (snapshotIgnored_fst_mem _ _ _ f hmem).2.1
      simp [IsIgnored, this] at hig
    rw [finalLoop_preserves work3 _ f hnot]
    exact hw3
  · intro hig
    have hsnap := snapshotIgnored_mem work1' (listAllFiles st)
      (GetIgnorePatterns work1' compile) f c hfl hb hif (by simpa [IsIgnored] using hig) hw1f
    have hnodup := snapshotIgnored_fst_nodup work1' (listAllFiles st)
      (GetIgnorePatterns work1' compile) (listAllFiles_nodup st hnd)
    rw [hst']
    exact finalLoop_writes _ _ f c hsnap hnodup

/-- Concrete repository used by the checkout witnesses: one save `s1` with
manifest `["a.txt"]` and its blob; the working tree holds a modified
`a.txt`, an ignored `x.log`, the ignore-spec file, and `old.txt` (present
in an earlier manifest view, absent from `s1`). -/
def stCheckout : RepoState :=
  RepoState.mk true [("a.txt", [7]), ("x.log", [9]), (".bitignore", [1]), ("old.txt", [3])]
    [(("s1", "a.txt"), frameBlob [65])] []
    [Save.mk "s0" "m" 0 ["a.txt", "old.txt"] "", Save.mk "s1" "n" 0 ["a.txt"] "s0"]

/-- Pattern compiler of the checkout witnesses: ignores `x.log`. -/
def compCheckout : Bytes → String → Bool := fun _ p => p == "x.log"

/-- Witness for C2 at a concrete input: the ignored `x.log` keeps its
content `[9]` across the checkout. -/
theorem C2_ignored_files_preserved_witness :
    findKey (RepoState.mk true [("x.log", [9]), ("a.txt", [65]), (".bitignore", [1])]
      stCheckout.objects stCheckout.deltaSets stCheckout.saves).work "x.log" = some [9] :=
  C2_ignored_files_preserved stCheckout "s1" compCheckout
    (RepoState.mk true [("x.log", [9]), ("a.txt", [65]), (".bitignore", [1])]
      stCheckout.objects stCheckout.deltaSets stCheckout.saves)
    (Save.mk "s1" "n" 0 ["a.txt"] "s0") stCheckout.work "x.log" [9]
    (by decide) (by decide) (by decide) (by decide) (by decide) (by decide) (by decide)
    (by decide)

/-- Witness for C5 at a concrete input: `old.txt` (in an earlier manifest,
not in `s1`, not ignored) is removed; had it been ignored it would have
been preserved. -/
theorem C5_deletion_sync_witness :
    findKey (RepoState.mk true [("x.log", [9]), ("a.txt", [65]), (".bitignore", [1])]
      stCheckout.objects stCheckout.deltaSets stCheckout.saves).work "old.txt" = none :=
  (C5_deletion_sync stCheckout "s1" compCheckout
    (RepoState.mk true [("x.log", [9]), ("a.txt", [65]), (".bitignore", [1])]
      stCheckout.objects stCheckout.deltaSets stCheckout.saves)
    (Save.mk "s1" "n" 0 ["a.txt"] "s0") (Save.mk "s0" "m" 0 ["a.txt", "old.txt"] "")
    stCheckout.work "old.txt" [3]
    (by decide) (by decide) (by decide) (by decide) (by decide) (by decide) (by decide)
    (by decide) (by decide) (by decide)).1 (by decide)

/-! ### Claim C3: delta-chain bounding -/

/-- Well-formed catalog: every base pointer is empty or names a catalog
entry (true of every catalog `SaveState` builds, where each base is the
previous entry). -/
def LinearCatalog (st : RepoState) : Prop :=
  ∀ s ∈ st.saves, s.baseSaveHash = "" ∨ s.baseSaveHash ∈ st.saves.map (fun t => t.hash)

/-- No persisted delta record points at the (fresh) hash `h`. -/
def deltaBasesAvoid (st : RepoState) (h : String) : Prop :=
  ∀ key ds, findKey st.deltaSets key = some ds → ∀ d ∈ ds.deltas, d.baseSaveHash ≠ h

theorem find?_append_left {α : Type} (p : α → Bool) (l1 l2 : List α) (s : α)
    (h : l1.find? p = some s) : (l1 ++ l2).find? p = some s := by
  induction l1 with
  | nil => simp [List.find?] at h
  | cons x t ih =>
    rw [List.cons_append]
    rw [List.find?] at h ⊢
    cases hp : p x with
    | true => rw [hp] at h; simpa [hp] using h
    | false => rw [hp] at h; simpa [hp] using ih h

theorem find?_append_right {α : Type} (p : α → Bool) (l1 l2 : List α)
    (h : l1.find? p = none) : (l1 ++ l2).find? p = l2.find? p := by
  induction l1 with
  | nil => simp
  | cons x t ih =>
    rw [List.find?] at h
    cases hp : p x with
    | true => rw [hp] at h; cases h
    | false =>
      rw [hp] at h
      rw [List.cons_append, List.find?, hp]
      exact ih h

theorem chainCount_acc (st : RepoState) (file : String) :
    ∀ fuel cur acc, chainCount st file fuel cur acc = acc + chainCount st file fuel cur 0 := by
  intro fuel
  induction fuel with
  | zero => intro cur acc; simp [chainCount]
  | succ n ih =>
    intro cur acc
    rw [chainCount, chainCount]
    by_cases hc : cur = ""
    · simp [hc]
    · simp only [hc, if_false]
      cases hfind : st.saves.find? (fun s => s.hash == cur) with
      | none => simp
      | some save =>
        by_cases hblob : (findKey st.objects (cur, file)).isSome
        · simp [hblob]
        · simp only [hblob, Bool.false_eq_true, if_false]
          rw [ih save.baseSaveHash (acc + 1), ih save.baseSaveHash (0 + 1)]
          omega

theorem chainCount_ext (st st2 : RepoState) (file : String) (h : String) (nsave : Save)
    (hsaves : st2.saves = st.saves ++ [nsave])
    (hobj : ∀ k : String × String, k.1 ≠ h → findKey st2.objects k = findKey st.objects k)
    (hlin : LinearCatalog st) (hfresh : h ∉ st.saves.map (fun t => t.hash)) (hne : h ≠ "") :
    ∀ fuel cur acc, (cur = "" ∨ cur ∈ st.saves.map (fun t => t.hash)) →
      chainCount st2 file fuel cur acc = chainCount st file fuel cur acc := by
  intro fuel
  induction fuel with
  | zero => intro cur acc _; rw [chainCount, chainCount]
  | succ n ih =>
    intro cur acc hcur
    rcases hcur with hcur | hcur
    · rw [chainCount, chainCount, if_pos hcur, if_pos hcur]
    · have hcne : cur ≠ h := fun hch => hfresh (hch ▸ hcur)
      rw [chainCount, chainCount]
      by_cases hc : cur = ""
      · simp [hc]
      · simp only [hc, if_false]
        cases hfind : st.saves.find? (fun s => s.hash == cur) with
        | none =>
          exfalso
          rw [List.find?_eq_none] at hfind
          simp only [List.mem_map] at hcur
          obtain ⟨s, hs, hsh⟩ := hcur
          exact hfind s hs (by simp [hsh])
        | some save =>
          rw [hsaves, find?_append_left _ _ _ _ hfind]
          rw [hobj (cur, file) hcne]
          by_cases hblob : (findKey st.objects (cur, file)).isSome
          · simp [hblob]
          · simp only [hblob, Bool.false_eq_true, if_false]
            have hmem : save ∈ st.saves := List.mem_of_find?_eq_some hfind
            exact ih save.baseSaveHash (acc + 1) (hlin save hmem)

theorem ApplyDelta_congr (d : DeltaInfo)
    (p1 p2 : String → String → Except Err (Option Bytes))
    (h : p1 d.path d.baseSaveHash = p2 d.path d.baseSaveHash) :
    ApplyDelta d p1 = ApplyDelta d p2 := by
  rw [ApplyDelta, ApplyDelta, h]

theorem getFCFS_objects_ext (st : RepoState) (obj : List ((String × String) × Bytes))
    (h : String)
    (hobj : ∀ k : String × String, k.1 ≠ h → findKey obj k = findKey st.objects k)
    (hDB : deltaBasesAvoid st h) :
    ∀ fuel file cur, cur ≠ h →
      getFileContentFromSave (RepoState.mk st.initialized st.work obj st.deltaSets st.saves)
        fuel file cur =
      getFileContentFromSave st fuel file cur := by
  intro fuel
  induction fuel with
  | zero => intro file cur _; rw [getFileContentFromSave, getFileContentFromSave]
  | succ n ih =>
    intro file cur hcur
    rw [getFileContentFromSave, getFileContentFromSave]
    by_cases hc : cur = ""
    · simp [hc]
    · simp only [hc, if_false]
      have hget :
          GetFileContent file cur obj st.work = GetFileContent file cur st.objects st.work := by
        rw [GetFileContent, GetFileContent]
        simp only [hc, if_false]
        rw [hobj (cur, file) hcur]
      rw [hget]
      cases hgc : GetFileContent file cur st.objects st.work with
      | ok content => rfl
      | error e =>
        cases hfind : st.saves.find? (fun s => s.hash == cur) with
        | none => rfl
        | some save =>
          cases hld : LoadDeltaSet cur st.deltaSets with
          | none => rfl
          | some ds =>
            show (match ds.deltas.find? (fun d => d.path == file) with
              | none => Except.error Err.notFound
              | some fileDelta => ApplyDelta fileDelta (fun p hh =>
                  getFileContentFromSave
                    (RepoState.mk st.initialized st.work obj st.deltaSets st.saves) n p hh)) =
              (match ds.deltas.find? (fun d => d.path == file) with
              | none => Except.error Err.notFound
              | some fileDelta => ApplyDelta fileDelta (fun p hh =>
                  getFileContentFromSave st n p hh))
            cases hfd : ds.deltas.find? (fun d => d.path == file) with
            | none => rfl
            | some fileDelta =>
              refine ApplyDelta_congr fileDelta _ _ ?_
              have hdmem : fileDelta ∈ ds.deltas := List.mem_of_find?_eq_some hfd
              have hbne : fileDelta.baseSaveHash ≠ h := hDB cur ds hld fileDelta hdmem
              exact ih fileDelta.path fileDelta.baseSaveHash hbne

theorem processOne_ok_shape (st : RepoState) (saveHash : String) (baseSave : Option Save)
    (acc : List ((String × String) × Bytes) × List DeltaInfo) (f : String)
    (acc' : List ((String × String) × Bytes) × List DeltaInfo)
    (h : processOne st saveHash baseSave acc f = .ok acc') :
    ∃ cur, findKey st.work f = some cur ∧
      (acc'.1 = acc.1 ∨ acc'.1 = SaveFullFile cur f saveHash acc.1) ∧
      ∃ dd, acc'.2 = acc.2 ++ [dd] := by
  rw [processOne] at h
  cases hw : findKey st.work f with
  | none => rw [hw] at h; cases h
  | some cur =>
    refine ⟨cur, rfl, ?_⟩
    simp only [hw] at h
    cases baseSave with
    | none =>
      injection h with h'
      exact ⟨Or.inr (congrArg Prod.fst h').symm, _, (congrArg Prod.snd h').symm⟩
    | some b =>
      by_cases hmem : f ∈ b.files
      · simp only [hmem, if_pos] at h
        cases hg : getFileContentFromSave
            (RepoState.mk st.initialized st.work acc.1 st.deltaSets st.saves)
            (resolveFuel st) f b.hash with
        | error e =>
          rw [show ({ st with objects := acc.1 } : RepoState) =
            RepoState.mk st.initialized st.work acc.1 st.deltaSets st.saves from rfl, hg] at h
          cases h
        | ok baseContent =>
          rw [show ({ st with objects := acc.1 } : RepoState) =
            RepoState.mk st.initialized st.work acc.1 st.deltaSets st.saves from rfl, hg] at h
          injection h with h'
          refine ⟨?_, _, (congrArg Prod.snd h').symm⟩
          have h1 := (congrArg Prod.fst h').symm
          simp only at h1
          split at h1
          · exact Or.inr h1
          · exact Or.inl h1
      · simp only [hmem, if_neg, if_false] at h
        injection h with h'
        exact ⟨Or.inr (congrArg Prod.fst h').symm, _, (congrArg Prod.snd h').symm⟩

theorem processAll_objects_preserve (st : RepoState) (saveHash : String)
    (baseSave : Option Save) :
    ∀ (L : List String) (acc : List ((String × String) × Bytes) × List DeltaInfo)
      (obj' : List ((String × String) × Bytes)) (deltas' : List DeltaInfo),
      processAll st saveHash baseSave L acc = .ok (obj', deltas') →
      ∀ k : String × String, (k.1 ≠ saveHash ∨ k.2 ∉ L) →
        findKey obj' k = findKey acc.1 k := by
  intro L
  induction L with
  | nil =>
    intro acc obj' deltas' h k _
    rw [processAll] at h
    injection h with h'
    rw [h']
  | cons g L' ih =>
    intro acc obj' deltas' h k hk
    rw [processAll] at h
    cases hp : processOne st saveHash baseSave acc g with
    | error e => rw [hp] at h; cases h
    | ok acc2 =>
      rw [hp] at h
      obtain ⟨cur, -, hobj, -⟩ := processOne_ok_shape st saveHash baseSave acc g acc2 hp
      have hk' : k.1 ≠ saveHash ∨ k.2 ∉ L' := by
        rcases hk with hk | hk
        · exact Or.inl hk
        · exact Or.inr fun hmem => hk (List.mem_cons_of_mem _ hmem)
      have hkg : k ≠ (saveHash, g) := by
        rcases hk with hk | hk
        · intro hkeq; rw [hkeq] at hk; exact hk rfl
        · intro hkeq; rw [hkeq] at hk; exact hk (List.mem_cons_self ..)
      rw [ih acc2 obj' deltas' h k hk']
      rcases hobj with hobj | hobj
      · rw [hobj]
      · rw [hobj, SaveFullFile, findKey_setKey_ne _ _ _ _ hkg]

theorem processAll_deltas_mono (st : RepoState) (saveHash : String) (baseSave : Option Save) :
    ∀ (L : List String) (acc : List ((String × String) × Bytes) × List DeltaInfo)
      (obj' : List ((String × String) × Bytes)) (deltas' : List DeltaInfo),
      processAll st saveHash baseSave L acc = .ok (obj', deltas') →
      ∀ d ∈ acc.2, d ∈ deltas' := by
  intro L
  induction L with
  | nil =>
    intro acc obj' deltas' h d hd
    rw [processAll] at h
    injection h with h'
    rw [h'] at hd
    exact hd
  | cons g L' ih =>
    intro acc obj' deltas' h d hd
    rw [processAll] at h
    cases hp : processOne st saveHash baseSave acc g with
    | error e => rw [hp] at h; cases h
    | ok acc2 =>
      rw [hp] at h
      obtain ⟨cur, -, -, dd, hdd⟩ := processOne_ok_shape st saveHash baseSave acc g acc2 hp
      exact ih acc2 obj' deltas' h d (by rw [hdd]; exact List.mem_append_left _ hd)


theorem processAll_blob_char (st : RepoState) (saveHash : String) (b : Save)
    (hbh : b.hash ≠ saveHash) (hDB : deltaBasesAvoid st saveHash) :
    ∀ (L : List String) (acc : List ((String × String) × Bytes) × List DeltaInfo)
      (obj' : List ((String × String) × Bytes)) (deltas' : List DeltaInfo),
      L.Nodup →
      (∀ k : String × String, k.1 ≠ saveHash → findKey acc.1 k = findKey st.objects k) →
      processAll st saveHash (some b) L acc = .ok (obj', deltas') →
      ∀ (f : String) (cur : Bytes) (a : Option Bytes),
        f ∈ L → f ∈ b.files →
        findKey st.work f = some cur →
        getFileContentFromSave st (resolveFuel st) f b.hash = .ok a →
        (findKey obj' (saveHash, f) =
          (if 0 < maxDeltaChainLength ∧ (CalculateDelta a (some cur) f b.hash).patches.isSome ∧
              maxDeltaChainLength ≤ deltaCountsFn st (some b) f
           then some (frameBlob cur) else findKey acc.1 (saveHash, f))) ∧
        CalculateDelta a (some cur) f b.hash ∈ deltas' := by
  intro L
  induction L with
  | nil =>
    intro acc obj' deltas' _ _ _ f cur a hf
    simp at hf
  | cons g L' ih =>
    intro acc obj' deltas' hnd hext h f cur a hfL hfb hcur hres
    rw [processAll] at h
    cases hp : processOne st saveHash (some b) acc g with
    | error e => rw [hp] at h; cases h
    | ok acc2 =>
      rw [hp] at h
      obtain ⟨hgnotin, hndL'⟩ := List.nodup_cons.mp hnd
      by_cases hgf : g = f
      · subst hgf
        have hresAcc : getFileContentFromSave
            (RepoState.mk st.initialized st.work acc.1 st.deltaSets st.saves)
            (resolveFuel st) g b.hash = .ok a := by
          rw [getFCFS_objects_ext st acc.1 saveHash hext hDB (resolveFuel st) g b.hash hbh]
          exact hres
        rw [processOne] at hp
        simp only [hcur] at hp
        rw [if_pos hfb] at hp
        rw [show ({ st with objects := acc.1 } : RepoState) =
          RepoState.mk st.initialized st.work acc.1 st.deltaSets st.saves from rfl, hresAcc] at hp
        injection hp with hp'
        have hobj2 : acc2.1 = if 0 < maxDeltaChainLength ∧
            (CalculateDelta a (some cur) g b.hash).patches.isSome ∧
            maxDeltaChainLength ≤ deltaCountsFn st (some b) g
          then SaveFullFile cur g saveHash acc.1 else acc.1 := (congrArg Prod.fst hp').symm
        have hdel2 : acc2.2 = acc.2 ++ [CalculateDelta a (some cur) g b.hash] :=
          (congrArg Prod.snd hp').symm
        constructor
        · rw [processAll_objects_preserve st saveHash (some b) L' acc2 obj' deltas' h
            (saveHash, g) (Or.inr hgnotin)]
          rw [hobj2]
          split
          · rw [SaveFullFile, findKey_setKey_self]
          · rfl
        · refine processAll_deltas_mono st saveHash (some b) L' acc2 obj' deltas' h _ ?_
          rw [hdel2]
          exact List.mem_append_right _ (List.mem_singleton.mpr rfl)
      · have hfL' : f ∈ L' := by
          rcases List.mem_cons.mp hfL with h0 | h0
          · exact absurd h0.symm hgf
          · exact h0
        obtain ⟨curg, -, hobjg, -⟩ := processOne_ok_shape st saveHash (some b) acc g acc2 hp
        have hext2 : ∀ k : String × String, k.1 ≠ saveHash →
            findKey acc2.1 k = findKey st.objects k := by
          intro k hk
          rcases hobjg with hobjg | hobjg
          · rw [hobjg]; exact hext k hk
          · rw [hobjg, SaveFullFile, findKey_setKey_ne _ _ _ _ (by
              intro hkeq; rw [hkeq] at hk; exact hk rfl)]
            exact hext k hk
        have hrec := ih acc2 obj' deltas' hndL' hext2 h f cur a hfL' hfb hcur hres
        refine ⟨?_, hrec.2⟩
        rw [hrec.1]
        have hacc2f : findKey acc2.1 (saveHash, f) = findKey acc.1 (saveHash, f) := by
          rcases hobjg with hobjg | hobjg
          · rw [hobjg]
          · rw [hobjg, SaveFullFile, findKey_setKey_ne _ _ _ _ (by
              intro hkeq
              exact hgf ((congrArg Prod.snd hkeq).symm))]
        rw [hacc2f]

theorem compressDelta_path (d : DeltaInfo) : (compressDelta d).path = d.path := by
  rw [compressDelta]
  split
  · split <;> rfl
  · rfl

theorem compressDelta_patches_isSome (d : DeltaInfo) :
    (compressDelta d).patches.isSome = d.patches.isSome := by
  rw [compressDelta]
  split
  · next t ht => split <;> simp [ht]
  · rfl

/-- Claim C3: for every successful save that records a real patch for a
file of the base manifest, (i) if the delta-chain length from the base save
has reached `maxDeltaChainLength` (10), a full blob for that file is stored
at the current save in addition to its delta record, and (ii) the chain
length from the new save is always at most `maxDeltaChainLength` — so after
any run of saves that each modify the file, resolving its latest content
replays at most `maxDeltaChainLength` deltas. -/
theorem C3_chain_bounding (st : RepoState) (name : String) (ts : Nat)
    (compile : Bytes → String → Bool) (h : String) (st' : RepoState)
    (b : Save) (f : String) (cur a : Bytes)
    (hs : SaveState st name ts compile = .ok (h, st'))
    (hbase : st.saves.getLast? = some b)
    (hlin : LinearCatalog st)
    (hfresh : h ∉ st.saves.map (fun t => t.hash))
    (hne : h ≠ "")
    (hDB : deltaBasesAvoid st h)
    (hNF : (getFilesToSave st compile).Nodup)
    (hf : f ∈ getFilesToSave st compile)
    (hfb : f ∈ b.files)
    (hcur : findKey st.work f = some cur)
    (hbc : getFileContentFromSave st (resolveFuel st) f b.hash = .ok (some a))
    (hmod : a ≠ cur) :
    (maxDeltaChainLength ≤ deltaChainCount st f b.hash →
      (findKey st'.objects (h, f)).isSome ∧
      ∃ ds d, findKey st'.deltaSets h = some ds ∧ d ∈ ds.deltas ∧ d.path = f ∧
        d.patches.isSome) ∧
    deltaChainCount st' f h ≤ maxDeltaChainLength := by
  obtain ⟨hinit, hh, st1, hsf, hi1, hw1, ho1, hd1, hsaves'⟩ :=
    SaveState_ok_parts st name ts compile h st' hs
  obtain ⟨objects', deltas, allDeltas, hpa, hmono, hst1⟩ :=
    saveFilesAsDelta_ok_parts st (getFilesToSave st compile) h st.saves.getLast? st1 hsf
  rw [hbase] at hpa
  simp only [hbase] at hsaves'
  have hst1saves : st1.saves = st.saves := by rw [hst1]
  rw [hst1saves] at hsaves'
  have hbmem : b ∈ st.saves := List.mem_of_mem_getLast? hbase
  have hbh : b.hash ≠ h := fun he => hfresh (List.mem_map.mpr ⟨b, hbmem, he⟩)
  have hP : (CalculateDelta (some a) (some cur) f b.hash).patches.isSome := by
    simp [CalculateDelta, patchMakeText, hmod]
  have hchar := processAll_blob_char st h b hbh hDB (getFilesToSave st compile)
    (st.objects, []) objects' deltas hNF (fun _ _ => rfl) hpa f cur (some a) hf hfb hcur hbc
  have hobj' : st'.objects = objects' := by rw [ho1, hst1]
  have hds' : st'.deltaSets =
      setKey st.deltaSets h (DeltaSet.mk h (allDeltas.map compressDelta)) := by
    rw [hd1, hst1]
    rfl
  have hobjpres : ∀ k : String × String, k.1 ≠ h →
      findKey st'.objects k = findKey st.objects k := by
    intro k hk
    rw [hobj']
    exact processAll_objects_preserve st h (some b) (getFilesToSave st compile)
      (st.objects, []) objects' deltas hpa k (Or.inl hk)
  constructor
  · intro hcount
    have hsc : 0 < maxDeltaChainLength ∧
        (CalculateDelta (some a) (some cur) f b.hash).patches.isSome ∧
        maxDeltaChainLength ≤ deltaCountsFn st (some b) f := by
      refine ⟨by norm_num [maxDeltaChainLength], hP, ?_⟩
      simpa [deltaCountsFn] using hcount
    constructor
    · rw [hobj', hchar.1, if_pos hsc]
      rfl
    · refine ⟨DeltaSet.mk h (allDeltas.map compressDelta),
        compressDelta (CalculateDelta (some a) (some cur) f b.hash), ?_, ?_, ?_, ?_⟩
      · rw [hds', findKey_setKey_self]
      · exact List.mem_map.mpr ⟨_, hmono _ hchar.2, rfl⟩
      · rw [compressDelta_path]
        rfl
      · rw [compressDelta_patches_isSome]
        exact hP
  · have hlen : st'.saves.length = st.saves.length + 1 := by
      rw [hsaves']
      simp
    have hfindnone : st.saves.find? (fun s => s.hash == h) = none := by
      rw [List.find?_eq_none]
      intro s hs
      simp only [beq_iff_eq]
      intro he
      exact hfresh (List.mem_map.mpr ⟨s, hs, he⟩)
    have hfind : st'.saves.find? (fun s => s.hash == h) =
        some (Save.mk h name ts (getFilesToSave st compile) b.hash) := by
      rw [hsaves', find?_append_right _ _ _ hfindnone]
      simp [List.find?]
    rw [deltaChainCount, hlen, chainCount]
    simp only [hne, if_false, hfind]
    by_cases hblob : (findKey st'.objects (h, f)).isSome
    · simp [hblob, maxDeltaChainLength]
    · simp only [hblob, Bool.false_eq_true, if_false]
      rw [chainCount_acc]
      have hext := chainCount_ext st st' f h
        (Save.mk h name ts (getFilesToSave st compile) b.hash) hsaves' hobjpres hlin hfresh hne
      rw [hext (st.saves.length + 1) b.hash 0
        (Or.inr (List.mem_map.mpr ⟨b, hbmem, rfl⟩))]
      have hnostore : ¬ (0 < maxDeltaChainLength ∧
          (CalculateDelta (some a) (some cur) f b.hash).patches.isSome ∧
          maxDeltaChainLength ≤ deltaCountsFn st (some b) f) := by
        intro hsc
        rw [hobj', hchar.1, if_pos hsc] at hblob
        simp at hblob
      have hlt : deltaCountsFn st (some b) f < maxDeltaChainLength := by
        by_contra hge
        exact hnostore ⟨by norm_num [maxDeltaChainLength], hP, by omega⟩
      have : chainCount st f (st.saves.length + 1) b.hash 0 < maxDeltaChainLength := by
        simpa [deltaCountsFn, deltaChainCount] using hlt
      omega

/-- Concrete repository of the C3 witness: one save `s1` with a blob for
`a.txt`, and a working tree where `a.txt` was modified. -/
def stC3 : RepoState :=
  RepoState.mk true [("a.txt", [66])] [(("s1", "a.txt"), frameBlob [65])] []
    [Save.mk "s1" "n" 0 ["a.txt"] ""]

/-- The state after the C3 witness save: a delta for `a.txt` is recorded
against `s1` and no blob is forced (the chain is still short). -/
def stC3' : RepoState :=
  RepoState.mk true [("a.txt", [66])] [(("s1", "a.txt"), frameBlob [65])]
    (SaveDeltaSet
      (DeltaSet.mk (createSaveHash "m" 1 ["a.txt"])
        [CalculateDelta (some [65]) (some [66]) "a.txt" "s1"]) [])
    [Save.mk "s1" "n" 0 ["a.txt"] "", Save.mk (createSaveHash "m" 1 ["a.txt"]) "m" 1 ["a.txt"] "s1"]

/-- Witness for C3 at a concrete input. -/
theorem C3_chain_bounding_witness :
    deltaChainCount stC3' "a.txt" (createSaveHash "m" 1 ["a.txt"]) ≤ maxDeltaChainLength :=
  (C3_chain_bounding stC3 "m" 1 (fun _ _ => false) (createSaveHash "m" 1 ["a.txt"]) stC3'
    (Save.mk "s1" "n" 0 ["a.txt"] "") "a.txt" [66] [65]
    (by decide) (by decide)
    (by intro s hs; simp only [stC3] at hs; simp at hs; rw [hs]; exact Or.inl rfl)
    (by decide) (by decide)
    (by intro key ds hds; simp [stC3] at hds)
    (by decide) (by decide) (by decide) (by decide) (by decide) (by decide)).2
